import Mathlib

/-!
Verification development for the question deduplication engine of
`scripts/deduplicate_questions.py`.

The Python functions `find_duplicates`, `select_canonical_version`,
`merge_sources` and `deduplicate_questions` are embedded as executable Lean
definitions.  Records are JSON-like dictionaries; we model the fields the
engine reads (`question`, `unit`, `year`, `source_file`, `question_number`,
`metadata`, `source_metadata`) explicitly, each optional field as an
`Option`, plus an opaque `extra` association list for caller fields the
engine never touches.  Metadata mappings are association lists in insertion
order, matching Python dict semantics (assignment overwrites in place or
appends a new key at the end).

Fallible Python operations (`int(...)` on a non-numeric string, `min` of an
empty sequence, sequence indexing out of range) are modelled with `Except`.

Two renderings of the engine are given:
* a value-level one (`deduplicate_questions`), where `dict.copy()` copies
  the metadata mapping by value; it gives the output values of the Python
  code whenever the input records carry pairwise unaliased metadata dicts
  (always the case for a corpus loaded from JSON);
* a store-level one (`deduplicateH`), where each record holds a reference
  (an address into a `Store` of mappings) to its metadata dict, so that the
  shallowness of `dict.copy()` (lines 145 and 175 of the source) and the
  resulting in-place mutation of shared mappings are observable.
-/

/-- Values stored in a metadata mapping: the engine writes string lists,
booleans and naturals; caller-supplied values are opaque (`ext`). -/
inductive MVal where
  | str : String → MVal
  | strList : List String → MVal
  | bool : Bool → MVal
  | nat : Nat → MVal
  | ext : Nat → MVal
  deriving DecidableEq, Repr

/-- A metadata mapping: an association list in insertion order, as a Python
dict. -/
abbrev Meta := List (String × MVal)

/-- Python dict assignment `m[k] = v`: overwrite in place if the key is
present, else append at the end. -/
def dictSet (m : Meta) (k : String) (v : MVal) : Meta :=
  if m.any (fun p => p.1 = k) then
    m.map (fun p => if p.1 = k then (k, v) else p)
  else m ++ [(k, v)]

/-- Python dict lookup `m.get(k)`. -/
def lookupMeta (m : Meta) (k : String) : Option MVal :=
  (m.find? (fun p => p.1 = k)).map Prod.snd

/-- One entry of `all_sources`, as built by `merge_sources` (lines 103-108):
absent fields propagate as `none`. -/
structure SourceEntry where
  year : Option String
  source_file : Option String
  question_number : Option String
  original_index : Nat
  deriving DecidableEq, Repr

/-- The dictionary returned by `merge_sources` (lines 110-115). -/
structure MergedSources where
  source_pdfs : List String
  years_found : List String
  all_sources : List SourceEntry
  duplicate_count : Nat
  deriving DecidableEq, Repr

/-- A question record, generic over the representation `μ` of the metadata
mapping (`Meta` for the value model, an address for the store model).
Optional fields are `none` when absent from the dictionary. -/
structure RecG (μ : Type) where
  question : Option String
  unit : Option String
  year : Option String
  source_file : Option String
  question_number : Option String
  metadata : Option μ
  source_metadata : Option MergedSources
  extra : List (String × MVal)
  deriving DecidableEq, Repr

/-- Value-level record: the metadata mapping is held inline. -/
abbrev QRec := RecG Meta

/-- Store-level record: the metadata field is an address into a `Store`. -/
abbrev HRec := RecG Nat

/-- Errors the Python code can raise inside the engine. -/
inductive PyErr where
  /-- `ValueError` from `int(...)` on a non-numeric string (line 68). -/
  | valueErr : PyErr
  /-- `ValueError` from `min(...)` on an empty sequence (line 78). -/
  | emptySeq : PyErr
  /-- `IndexError` from `questions[i]` out of range. -/
  | indexErr : PyErr
  deriving DecidableEq, Repr

/-- Characters stripped by Python `str.strip()` (the `str` whitespace set). -/
def pyWs (c : Char) : Bool :=
  let n := c.toNat
  (9 ≤ n && n ≤ 13) || (28 ≤ n && n ≤ 31) || n == 32 || n == 133 ||
  n == 160 || n == 5760 || (8192 ≤ n && n ≤ 8202) || n == 8232 ||
  n == 8233 || n == 8239 || n == 8287 || n == 12288

/-- Python `s.strip()`: drop whitespace from both ends. -/
def pyStrip (s : String) : String :=
  ⟨((s.toList.dropWhile pyWs).reverse.dropWhile pyWs).reverse⟩

/-- Tail of a valid Python integer-literal digit run: digits with single
underscores allowed between digits. -/
def digitsRest : List Char → Bool
  | [] => true
  | '_' :: c :: rest => c.isDigit && digitsRest rest
  | c :: rest => c.isDigit && digitsRest rest

/-- A valid Python digit run: nonempty, starts with a digit, underscores
only between digits. -/
def digitsOk : List Char → Bool
  | [] => false
  | c :: rest => c.isDigit && digitsRest rest

/-- Numeric value of a digit run, ignoring grouping underscores. -/
def digitsVal (l : List Char) : Nat :=
  l.foldl (fun n c => if c = '_' then n else 10 * n + (c.toNat - 48)) 0

/-- Python `int(s)` on a string: strip whitespace, optional sign, digit run
with optional grouping underscores; `none` models the `ValueError`. -/
def pyInt (s : String) : Option Int :=
  let t := (pyStrip s).toList
  match t with
  | '+' :: rest => if digitsOk rest then some (digitsVal rest) else none
  | '-' :: rest => if digitsOk rest then some (-(digitsVal rest : Int)) else none
  | _ => if digitsOk t then some (digitsVal t) else none

/-- Deduplication key of a record: `q.get("question", "").strip()`
(line 42). -/
def dedupKey {μ : Type} (q : RecG μ) : String :=
  pyStrip (q.question.getD "")

/-- Insert index `i` under key `k` in the insertion-ordered association of
`defaultdict(list)`: append to the existing list, or add a new key at the
end. -/
def groupInsert (m : List (String × List Nat)) (k : String) (i : Nat) :
    List (String × List Nat) :=
  if m.any (fun p => p.1 = k) then
    m.map (fun p => if p.1 = k then (p.1, p.2 ++ [i]) else p)
  else m ++ [(k, [i])]

/-- The `question_texts` mapping of `find_duplicates` (lines 40-43): scan
the corpus left to right, grouping indices by trimmed question text, keys in
first-seen order. -/
def question_texts {μ : Type} (qs : List (RecG μ)) : List (String × List Nat) :=
  qs.enum.foldl (fun m p => groupInsert m (dedupKey p.2) p.1) []

/-- `find_duplicates` (lines 33-46): keep only the groups with at least two
members, preserving first-seen key order. -/
def find_duplicates {μ : Type} (qs : List (RecG μ)) : List (String × List Nat) :=
  (question_texts qs).filter (fun p => 1 < p.2.length)

/-- The composite priority key of `priority_key` (lines 65-76):
`(unit == "Unknown", year, -has_metadata)`. -/
abbrev PKey := Bool × Int × Int

/-- Python tuple `<` on a `PKey` (bools compare as 0 and 1). -/
def pkLt : PKey → PKey → Bool
  | (u1, y1, m1), (u2, y2, m2) =>
    (!u1 && u2) || (u1 == u2 && (decide (y1 < y2) || (y1 == y2 && decide (m1 < m2))))

/-- The year component of the priority key (line 68):
`int(q.get("year", 9999)) if q.get("year") else 9999`.  An absent or empty
(falsy) year yields the sentinel 9999; a non-numeric year raises
`ValueError`. -/
def yearKey (y : Option String) : Except PyErr Int :=
  match y with
  | none => Except.ok 9999
  | some s =>
    if s = "" then Except.ok 9999
    else match pyInt s with
      | some n => Except.ok n
      | none => Except.error PyErr.valueErr

/-- `priority_key` (lines 65-76), parametrised by the truthiness test `mt`
on the metadata representation (`q.get("metadata")` is truthy when the dict
is present and non-empty). -/
def priority_key {μ : Type} (mt : μ → Bool) (q : RecG μ) : Except PyErr PKey := do
  let unit := q.unit.getD "Unknown"
  let year ← yearKey q.year
  let hasMeta : Int := match q.metadata with
    | none => 0
    | some m => if mt m then 1 else 0
  Except.ok (unit == "Unknown", year, -hasMeta)

/-- Monadic map over `Except`, the effect of a Python `for` loop that can
raise: stops at the first error. -/
def exMap {α β : Type} (f : α → Except PyErr β) : List α → Except PyErr (List β)
  | [] => Except.ok []
  | a :: l => do
    let b ← f a
    let bs ← exMap f l
    Except.ok (b :: bs)

/-- `questions[i]`, raising `IndexError` when out of range. -/
def pyGet {μ : Type} (qs : List (RecG μ)) (i : Nat) : Except PyErr (RecG μ) :=
  match qs.get? i with
  | some q => Except.ok q
  | none => Except.error PyErr.indexErr

/-- `select_canonical_version` (lines 49-79): build the candidate list, then
`min(candidates, key=priority_key)` — Python `min` keeps the first element
whose key is minimal, and raises on an empty sequence. -/
def select_canonical_version {μ : Type} (mt : μ → Bool) (qs : List (RecG μ))
    (indices : List Nat) : Except PyErr (Nat × RecG μ) := do
  let candidates ← exMap (fun i => do
    let q ← pyGet qs i
    Except.ok (i, q)) indices
  let keyed ← exMap (fun c => do
    let k ← priority_key mt c.2
    Except.ok (k, c)) candidates
  match keyed with
  | [] => Except.error PyErr.emptySeq
  | x :: xs =>
    Except.ok (xs.foldl (fun best y => if pkLt y.1 best.1 then y else best) x).2

/-- Add a string to a set modelled as a duplicate-free list (order
irrelevant once sorted). -/
def setIns (l : List String) (s : String) : List String :=
  if s ∈ l then l else l ++ [s]

/-- Python `sorted` on strings: ascending lexicographic order. -/
def sortStrings (l : List String) : List String :=
  l.insertionSort (fun a b => a ≤ b)

/-- `merge_sources` (lines 82-115).  Note the Python truthiness tests
`if year:` and `if source_file:` (lines 98-101): a present but empty string
is excluded from the accumulated sets. -/
def merge_sources {μ : Type} (qs : List (RecG μ)) (indices : List Nat) :
    Except PyErr MergedSources := do
  let recs ← exMap (fun i => do
    let q ← pyGet qs i
    Except.ok (i, q)) indices
  let sources := recs.map (fun p =>
    SourceEntry.mk p.2.year p.2.source_file p.2.question_number p.1)
  let years := recs.foldl (fun acc p =>
    match p.2.year with
    | some y => if y = "" then acc else setIns acc y
    | none => acc) []
  let files := recs.foldl (fun acc p =>
    match p.2.source_file with
    | some s => if s = "" then acc else setIns acc s
    | none => acc) []
  Except.ok (MergedSources.mk (sortStrings files) (sortStrings years)
    sources indices.length)

/-- Truthiness of a value-level metadata mapping: present and non-empty. -/
def metaNonEmpty (m : Meta) : Bool := !m.isEmpty

/-- One audit entry of `report["duplicate_groups"]` (lines 164-170). -/
structure GroupAudit where
  canonical_index : Nat
  canonical_unit : Option String
  canonical_year : Option String
  duplicate_indices : List Nat
  merged_sources : MergedSources
  deriving DecidableEq, Repr

/-- The deduplication report (lines 130-135 and 181-182). -/
structure Report where
  total_original : Nat
  total_duplicates_found : Nat
  total_duplicate_instances : Nat
  duplicate_groups : List GroupAudit
  total_after_deduplication : Nat
  questions_removed : Int
  deriving DecidableEq, Repr

/-- Enhancement of the canonical record (lines 144-154), value-level:
`canonical_q.copy()` copies the metadata mapping by value here. -/
def enhanceQ (cq : QRec) (ms : MergedSources) : QRec :=
  let m0 := cq.metadata.getD []
  let m1 := dictSet m0 "source_pdfs" (MVal.strList ms.source_pdfs)
  let m2 := dictSet m1 "years_found" (MVal.strList ms.years_found)
  let m3 := dictSet m2 "is_deduplicated" (MVal.bool true)
  let m4 := dictSet m3 "duplicate_count" (MVal.nat ms.duplicate_count)
  { cq with source_metadata := some ms, metadata := some m4 }

/-- Tagging of a non-duplicate record (lines 175-178), value-level. -/
def tagNonDup (q : QRec) : QRec :=
  { q with
    metadata := some (dictSet (q.metadata.getD []) "is_deduplicated" (MVal.bool false)) }

/-- Processing of one duplicate group (lines 138-170): canonical selection,
provenance merge, enhanced record and audit entry. -/
def processGroup (qs : List QRec) (g : String × List Nat) :
    Except PyErr (QRec × GroupAudit) := do
  let c ← select_canonical_version metaNonEmpty qs g.2
  let ms ← merge_sources qs g.2
  Except.ok (enhanceQ c.2 ms,
    GroupAudit.mk c.1 c.2.unit c.2.year g.2 ms)

/-- `deduplicate_questions` (lines 118-184), value-level.  The second pass
iterates `sorted(indices_to_keep)` (ascending original order, with
`indices_to_keep = set(range(N))` minus the non-canonical duplicate
indices) and skips the canonical indices, which is rendered here as a
filter over the enumerated corpus. -/
def deduplicate_questions (qs : List QRec) :
    Except PyErr (List QRec × Report) := do
  let processed ← exMap (processGroup qs) (find_duplicates qs)
  let canonRecs := processed.map Prod.fst
  let audits := processed.map Prod.snd
  let removed := audits.flatMap (fun a =>
    a.duplicate_indices.filter (fun i => i ≠ a.canonical_index))
  let canons := audits.map (fun a => a.canonical_index)
  let rest := qs.enum.filterMap (fun p =>
    if p.1 ∈ removed ∨ p.1 ∈ canons then none else some (tagNonDup p.2))
  let out := canonRecs ++ rest
  Except.ok (out,
    { total_original := qs.length
      total_duplicates_found := (find_duplicates qs).length
      total_duplicate_instances :=
        ((find_duplicates qs).map (fun g => g.2.length - 1)).sum
      duplicate_groups := audits
      total_after_deduplication := out.length
      questions_removed := (qs.length : Int) - out.length })

/-! ### Store-level model

Python dicts are reference values and `dict.copy()` is shallow: the copy on
line 145 (and line 175) shares its `metadata` mapping with the original
record.  To make this observable we give a second rendering of the engine in
which each record's `metadata` field is an address into a store of mappings;
`deduplicateH` is the same source code (lines 118-184) under these reference
semantics. -/

/-- A heap of metadata mappings, addressed by position. -/
abbrev Store := List Meta

/-- Read the mapping at address `a` (a dangling address reads as empty). -/
def storeGet (st : Store) (a : Nat) : Meta := st.getD a []

/-- In-place dict assignment `m[k] = v` through a reference. -/
def dictSetStore (st : Store) (a : Nat) (k : String) (v : MVal) : Store :=
  st.set a (dictSet (storeGet st a) k v)

/-- Metadata truthiness for a store-level record: the referenced dict is
non-empty. -/
def metaTruthH (st : Store) (a : Nat) : Bool := !(storeGet st a).isEmpty

/-- Lines 144-154 under reference semantics: `enhanced_q = canonical_q.copy()`
shares the metadata address, so the four key writes mutate the mapping also
seen by the input record; a record without metadata gets a fresh mapping. -/
def enhanceH (st : Store) (cq : HRec) (ms : MergedSources) : Store × HRec :=
  match cq.metadata with
  | some a =>
    let st1 := dictSetStore st a "source_pdfs" (MVal.strList ms.source_pdfs)
    let st2 := dictSetStore st1 a "years_found" (MVal.strList ms.years_found)
    let st3 := dictSetStore st2 a "is_deduplicated" (MVal.bool true)
    let st4 := dictSetStore st3 a "duplicate_count" (MVal.nat ms.duplicate_count)
    (st4, { cq with source_metadata := some ms })
  | none =>
    let a := st.length
    let st0 := st ++ [[]]
    let st1 := dictSetStore st0 a "source_pdfs" (MVal.strList ms.source_pdfs)
    let st2 := dictSetStore st1 a "years_found" (MVal.strList ms.years_found)
    let st3 := dictSetStore st2 a "is_deduplicated" (MVal.bool true)
    let st4 := dictSetStore st3 a "duplicate_count" (MVal.nat ms.duplicate_count)
    (st4, { cq with source_metadata := some ms, metadata := some a })

/-- Lines 175-178 under reference semantics: the shallow copy shares the
metadata address, so setting `is_deduplicated` mutates the shared mapping. -/
def tagH (st : Store) (q : HRec) : Store × HRec :=
  match q.metadata with
  | some a => (dictSetStore st a "is_deduplicated" (MVal.bool false), q)
  | none =>
    let a := st.length
    (dictSetStore (st ++ [[]]) a "is_deduplicated" (MVal.bool false),
      { q with metadata := some a })

/-- The per-group loop of lines 138-170 under reference semantics, threading
the store. -/
def processGroupsH (qs : List HRec) :
    Store → List (String × List Nat) →
    Except PyErr (Store × List HRec × List GroupAudit)
  | st, [] => Except.ok (st, [], [])
  | st, g :: gs => do
    let c ← select_canonical_version (metaTruthH st) qs g.2
    let ms ← merge_sources qs g.2
    let r ← processGroupsH qs (enhanceH st c.2 ms).1 gs
    Except.ok (r.1, (enhanceH st c.2 ms).2 :: r.2.1,
      GroupAudit.mk c.1 c.2.unit c.2.year g.2 ms :: r.2.2)

/-- The second pass of lines 172-179 under reference semantics. -/
def tagPassH (removed canons : List Nat) :
    Store → List (Nat × HRec) → Store × List HRec
  | st, [] => (st, [])
  | st, p :: ps =>
    if p.1 ∈ removed ∨ p.1 ∈ canons then tagPassH removed canons st ps
    else
      ((tagPassH removed canons (tagH st p.2).1 ps).1,
        (tagH st p.2).2 :: (tagPassH removed canons (tagH st p.2).1 ps).2)

/-- `deduplicate_questions` (lines 118-184) under reference semantics for
the metadata mappings. -/
def deduplicateH (st : Store) (qs : List HRec) :
    Except PyErr (Store × List HRec × Report) := do
  let r ← processGroupsH qs st (find_duplicates qs)
  let audits := r.2.2
  let removed := audits.flatMap (fun a =>
    a.duplicate_indices.filter (fun i => i ≠ a.canonical_index))
  let canons := audits.map (fun a => a.canonical_index)
  let r2 := tagPassH removed canons r.1 qs.enum
  let out := r.2.1 ++ r2.2
  Except.ok (r2.1, out,
    { total_original := qs.length
      total_duplicates_found := (find_duplicates qs).length
      total_duplicate_instances :=
        ((find_duplicates qs).map (fun g => g.2.length - 1)).sum
      duplicate_groups := audits
      total_after_deduplication := out.length
      questions_removed := (qs.length : Int) - out.length })

/-! ### Specification-side notions

Independent descriptions of the grouping, used to state the claims: the key
of the record at a position, the ascending list of positions carrying a
given key, and the keys in order of first encounter. -/

/-- Key of the record at position `i` (spec side; `""` beyond the corpus). -/
def keyAt {μ : Type} (qs : List (RecG μ)) (i : Nat) : String :=
  match qs.get? i with
  | some q => dedupKey q
  | none => ""

/-- Ascending list of the positions `< n` whose record carries key `t`. -/
def idxWith {μ : Type} (qs : List (RecG μ)) (n : Nat) (t : String) : List Nat :=
  (List.range n).filter (fun i => keyAt qs i = t)

/-- Append a key if it has not been seen yet. -/
def insFirst (l : List String) (t : String) : List String :=
  if t ∈ l then l else l ++ [t]

/-- Keys of the first `n` records, in order of first encounter. -/
def firstSeenKeys {μ : Type} (qs : List (RecG μ)) (n : Nat) : List String :=
  (List.range n).foldl (fun acc i => insFirst acc (keyAt qs i)) []

/-- An all-absent record (spec side, used as a `getD` default). -/
def dfltQ : QRec := RecG.mk none none none none none none none []

/-- A position belongs to a duplicate group iff its key occurs at two or
more positions. -/
def isDupPos (qs : List QRec) (i : Nat) : Prop :=
  1 < (idxWith qs qs.length (keyAt qs i)).length

/-! ### Basic lemmas on dictionaries and keys -/

theorem find?_map_keyPres (m : Meta) (f : String × MVal → String × MVal)
    (hf : ∀ p, (f p).1 = p.1) (k : String) :
    (m.map f).find? (fun p => p.1 = k) = Option.map f (m.find? (fun p => p.1 = k)) := by
  induction m with
  | nil => rfl
  | cons p m ih =>
    simp only [List.map_cons, List.find?]
    rw [hf p]
    by_cases hp : p.1 = k
    · simp [hp]
    · have : (decide (p.1 = k)) = false := by simp [hp]
      simp only [this, ih]

theorem lookupMeta_dictSet_self (m : Meta) (k : String) (v : MVal) :
    lookupMeta (dictSet m k v) k = some v := by
  unfold dictSet lookupMeta
  cases hany : m.any (fun p => p.1 = k) with
  | true =>
    simp only [hany, if_true]
    rw [find?_map_keyPres m _ (fun p => by by_cases hp : p.1 = k <;> simp [hp]) k]
    rcases List.any_eq_true.1 hany with ⟨p, hp, hpk⟩
    have hsome : (m.find? (fun p => decide (p.1 = k))).isSome := by
      rw [List.find?_isSome]
      exact ⟨p, hp, hpk⟩
    rcases Option.isSome_iff_exists.1 hsome with ⟨q, hq⟩
    have hq2 := List.find?_some hq
    have hqk : q.1 = k := by simpa using hq2
    rw [hq]
    simp [hqk]
  | false =>
    simp only [hany, Bool.false_eq_true, if_false]
    rw [List.find?_append]
    have hnone : m.find? (fun p => decide (p.1 = k)) = none := by
      rw [List.find?_eq_none]
      intro p hp hc
      have : m.any (fun p => p.1 = k) = true := List.any_eq_true.2 ⟨p, hp, hc⟩
      rw [hany] at this
      exact Bool.false_ne_true this
    rw [hnone]
    simp [List.find?]

theorem lookupMeta_dictSet_ne (m : Meta) (k k' : String) (v : MVal)
    (h : k' ≠ k) : lookupMeta (dictSet m k v) k' = lookupMeta m k' := by
  unfold dictSet lookupMeta
  cases hany : m.any (fun p => p.1 = k) with
  | true =>
    simp only [hany, if_true]
    rw [find?_map_keyPres m _ (fun p => by by_cases hp : p.1 = k <;> simp [hp]) k']
    rcases hfind : m.find? (fun p => decide (p.1 = k')) with _ | q
    · rw [hfind]; rfl
    · have hq2 := List.find?_some hfind
      have hqk : q.1 = k' := by simpa using hq2
      have hqne : ¬ q.1 = k := by rw [hqk]; exact h
      rw [hfind]
      simp [hqne]
  | false =>
    simp only [hany, Bool.false_eq_true, if_false]
    rw [List.find?_append]
    rcases hfind : m.find? (fun p => decide (p.1 = k')) with _ | q
    · have hkk : (decide (k = k')) = false := by
        simp only [decide_eq_false_iff_not]
        exact fun hc => h hc.symm
      rw [hfind]
      simp [List.find?, hkk]
    · rw [hfind]
      simp

/-- Stripping a fully whitespace character list yields the empty string. -/
theorem pyStrip_all_ws (s : String) (h : s.toList.all pyWs) : pyStrip s = "" := by
  have hd : s.data.dropWhile pyWs = [] := List.dropWhile_eq_nil_iff.2 (by
    intro x hx; exact (List.all_eq_true.1 h) x hx)
  unfold pyStrip
  have : s.toList = s.data := rfl
  rw [this, hd]
  rfl

theorem pyStrip_empty : pyStrip "" = "" := by rfl

/-! ### First-seen keys and per-key index lists -/

theorem mem_insFirst {l : List String} {t s : String} :
    s ∈ insFirst l t ↔ s ∈ l ∨ s = t := by
  unfold insFirst
  by_cases h : t ∈ l
  · simp only [h, if_true]
    constructor
    · exact Or.inl
    · rintro (hs | rfl)
      · exact hs
      · exact h
  · simp [h]

theorem insFirst_nodup {l : List String} {t : String} (h : l.Nodup) :
    (insFirst l t).Nodup := by
  unfold insFirst
  by_cases ht : t ∈ l
  · simpa [ht]
  · simp only [ht, if_false]
    simpa [List.nodup_append] using ⟨h, ht⟩

theorem firstSeenKeys_succ {μ : Type} (qs : List (RecG μ)) (n : Nat) :
    firstSeenKeys qs (n + 1) = insFirst (firstSeenKeys qs n) (keyAt qs n) := by
  unfold firstSeenKeys
  rw [List.range_succ, List.foldl_append]
  rfl

theorem mem_firstSeenKeys {μ : Type} {qs : List (RecG μ)} {n : Nat} {t : String} :
    t ∈ firstSeenKeys qs n ↔ ∃ i, i < n ∧ keyAt qs i = t := by
  induction n with
  | zero =>
    constructor
    · intro h; simp [firstSeenKeys] at h
    · rintro ⟨i, hi, _⟩; omega
  | succ n ih =>
    rw [firstSeenKeys_succ, mem_insFirst, ih]
    constructor
    · rintro (⟨i, hi, hk⟩ | rfl)
      · exact ⟨i, by omega, hk⟩
      · exact ⟨n, by omega, rfl⟩
    · rintro ⟨i, hi, hk⟩
      by_cases hin : i = n
      · subst hin; exact Or.inr hk.symm
      · exact Or.inl ⟨i, by omega, hk⟩

theorem firstSeenKeys_nodup {μ : Type} (qs : List (RecG μ)) (n : Nat) :
    (firstSeenKeys qs n).Nodup := by
  induction n with
  | zero => simp [firstSeenKeys]
  | succ n ih => rw [firstSeenKeys_succ]; exact insFirst_nodup ih

theorem mem_idxWith {μ : Type} {qs : List (RecG μ)} {n : Nat} {t : String} {i : Nat} :
    i ∈ idxWith qs n t ↔ i < n ∧ keyAt qs i = t := by
  simp [idxWith, List.mem_filter]

theorem idxWith_sorted {μ : Type} (qs : List (RecG μ)) (n : Nat) (t : String) :
    (idxWith qs n t).Pairwise (· < ·) :=
  (List.pairwise_lt_range n).filter _

theorem idxWith_nodup {μ : Type} (qs : List (RecG μ)) (n : Nat) (t : String) :
    (idxWith qs n t).Nodup :=
  (idxWith_sorted qs n t).imp Nat.ne_of_lt

theorem idxWith_succ {μ : Type} (qs : List (RecG μ)) (n : Nat) (t : String) :
    idxWith qs (n + 1) t =
      idxWith qs n t ++ (if keyAt qs n = t then [n] else []) := by
  unfold idxWith
  rw [List.range_succ, List.filter_append]
  congr 1
  by_cases h : keyAt qs n = t <;> simp [h]

theorem idxWith_disjoint {μ : Type} {qs : List (RecG μ)} {n : Nat} {t t' : String}
    {i : Nat} (h : i ∈ idxWith qs n t) (h' : i ∈ idxWith qs n t') : t = t' := by
  rw [mem_idxWith] at h h'
  rw [← h.2, h'.2]

/-! ### Characterization of the grouping pass -/

theorem any_key_iff (m : List (String × List Nat)) (k : String) :
    m.any (fun p => p.1 = k) = true ↔ k ∈ m.map Prod.fst := by
  simp only [List.any_eq_true, List.mem_map, decide_eq_true_eq]

/-- Invariant of the grouping fold after the first `n` records: the keys are
the first-seen keys, and each key maps to the ascending list of positions
carrying it. -/
structure GInv {μ : Type} (qs : List (RecG μ)) (n : Nat)
    (m : List (String × List Nat)) : Prop where
  keys : m.map Prod.fst = firstSeenKeys qs n
  grp : ∀ t l, (t, l) ∈ m → l = idxWith qs n t

theorem ginv_step {μ : Type} {qs : List (RecG μ)} {n : Nat}
    {m : List (String × List Nat)} {q : RecG μ}
    (h : GInv qs n m) (hq : qs.get? n = some q) :
    GInv qs (n + 1) (groupInsert m (dedupKey q) n) := by
  have hkey : keyAt qs n = dedupKey q := by unfold keyAt; rw [hq]
  unfold groupInsert
  cases hany : m.any (fun p => p.1 = dedupKey q) with
  | true =>
    rw [if_pos rfl]
    have hmem : dedupKey q ∈ m.map Prod.fst := (any_key_iff _ _).1 hany
    refine ⟨?_, ?_⟩
    · rw [firstSeenKeys_succ, hkey, ← h.keys]
      unfold insFirst
      rw [if_pos hmem, List.map_map]
      apply List.map_congr_left
      intro p _
      by_cases hp : p.1 = dedupKey q <;> simp [hp]
    · intro t l hml
      rcases List.mem_map.1 hml with ⟨p, hp, hfp⟩
      by_cases hpk : p.1 = dedupKey q
      · rw [if_pos hpk] at hfp
        injection hfp with ht hl
        subst ht
        subst hl
        have hgrp := h.grp p.1 p.2 (by rwa [Prod.mk.eta])
        rw [hgrp, idxWith_succ, if_pos (by rw [hkey, ← hpk])]
      · rw [if_neg hpk] at hfp
        have ht : p.1 = t := congrArg Prod.fst hfp
        have hl : p.2 = l := congrArg Prod.snd hfp
        subst ht
        subst hl
        have hgrp := h.grp p.1 p.2 (by rwa [Prod.mk.eta])
        rw [hgrp, idxWith_succ]
        rw [if_neg (by rw [hkey]; exact fun hc => hpk hc.symm), List.append_nil]
  | false =>
    rw [if_neg Bool.false_ne_true]
    have hnmem : dedupKey q ∉ m.map Prod.fst := fun hc =>
      Bool.false_ne_true (hany ▸ (any_key_iff _ _).2 hc)
    refine ⟨?_, ?_⟩
    · rw [firstSeenKeys_succ, hkey, ← h.keys]
      unfold insFirst
      rw [if_neg hnmem, List.map_append]
      rfl
    · intro t l hml
      rcases List.mem_append.1 hml with hml | hml
      · have ht : t ≠ dedupKey q := by
          intro hc
          exact hnmem (hc ▸ List.mem_map.2 ⟨(t, l), hml, rfl⟩)
        rw [h.grp t l hml, idxWith_succ]
        rw [if_neg (by rw [hkey]; exact fun hc => ht hc.symm), List.append_nil]
      · have : t = dedupKey q ∧ l = [n] := by
          rcases List.mem_singleton.1 hml with h'
          exact ⟨congrArg Prod.fst h', congrArg Prod.snd h'⟩
        rcases this with ⟨rfl, rfl⟩
        have hempty : idxWith qs n (dedupKey q) = [] := by
          by_contra hne
          rcases List.exists_mem_of_ne_nil _ hne with ⟨i, hi⟩
          rcases mem_idxWith.1 hi with ⟨hin, hik⟩
          exact hnmem (h.keys ▸ mem_firstSeenKeys.2 ⟨i, hin, hik⟩)
        rw [idxWith_succ, hempty, if_pos hkey, List.nil_append]

theorem ginv_fold {μ : Type} (qs : List (RecG μ)) :
    ∀ (l : List (RecG μ)) (n : Nat) (m : List (String × List Nat)),
      qs.drop n = l → GInv qs n m →
      GInv qs (n + l.length)
        ((l.enumFrom n).foldl (fun m p => groupInsert m (dedupKey p.2) p.1) m) := by
  intro l
  induction l with
  | nil => intro n m _ h; simpa using h
  | cons a l ih =>
    intro n m hdrop h
    have hget : qs.get? n = some a := by
      have h0 : (qs.drop n).get? 0 = some a := by rw [hdrop]; rfl
      rw [List.get?_drop] at h0
      simpa using h0
    have hdrop' : qs.drop (n + 1) = l := by
      rw [← List.tail_drop, hdrop]
      rfl
    have step := ginv_step h hget
    have hres := ih (n + 1) _ hdrop' step
    have harith : n + 1 + l.length = n + (a :: l).length := by
      simp [List.length_cons]; omega
    rw [harith] at hres
    exact hres

theorem question_texts_inv {μ : Type} (qs : List (RecG μ)) :
    GInv qs qs.length (question_texts qs) := by
  have h0 : GInv qs 0 [] := ⟨rfl, by intro t l h; simp at h⟩
  have hres := ginv_fold qs qs 0 [] (by simp) h0
  have henum : qs.enum = qs.enumFrom 0 := rfl
  have : question_texts qs =
      (qs.enumFrom 0).foldl (fun m p => groupInsert m (dedupKey p.2) p.1) [] := by
    unfold question_texts
    rw [henum]
  rw [this]
  simpa using hres

theorem question_texts_grp {μ : Type} {qs : List (RecG μ)} {t : String}
    {l : List Nat} (h : (t, l) ∈ question_texts qs) :
    l = idxWith qs qs.length t :=
  (question_texts_inv qs).grp t l h

theorem question_texts_keys {μ : Type} (qs : List (RecG μ)) :
    (question_texts qs).map Prod.fst = firstSeenKeys qs qs.length :=
  (question_texts_inv qs).keys

theorem question_texts_mem {μ : Type} {qs : List (RecG μ)} {t : String}
    (h : idxWith qs qs.length t ≠ []) :
    (t, idxWith qs qs.length t) ∈ question_texts qs := by
  rcases List.exists_mem_of_ne_nil _ h with ⟨i, hi⟩
  rcases mem_idxWith.1 hi with ⟨hin, hik⟩
  have hkeys : t ∈ (question_texts qs).map Prod.fst := by
    rw [question_texts_keys]
    exact mem_firstSeenKeys.2 ⟨i, hin, hik⟩
  rcases List.mem_map.1 hkeys with ⟨p, hp, hfst⟩
  subst hfst
  have hgrp := question_texts_grp (t := p.1) (l := p.2) (by rwa [Prod.mk.eta])
  rw [← hgrp, Prod.mk.eta]
  exact hp

theorem fd_grp {μ : Type} {qs : List (RecG μ)} {t : String} {l : List Nat}
    (h : (t, l) ∈ find_duplicates qs) :
    l = idxWith qs qs.length t ∧ 1 < l.length := by
  rcases List.mem_filter.1 h with ⟨hm, hlen⟩
  exact ⟨question_texts_grp hm, by simpa using hlen⟩

theorem fd_mem {μ : Type} {qs : List (RecG μ)} {t : String}
    (h : 1 < (idxWith qs qs.length t).length) :
    (t, idxWith qs qs.length t) ∈ find_duplicates qs := by
  apply List.mem_filter.2
  refine ⟨question_texts_mem ?_, by simpa using h⟩
  intro hc
  rw [hc] at h
  simp at h

theorem fd_keys_nodup {μ : Type} (qs : List (RecG μ)) :
    ((find_duplicates qs).map Prod.fst).Nodup := by
  have hsub : (find_duplicates qs).Sublist (question_texts qs) :=
    List.filter_sublist _
  have := (hsub.map Prod.fst).nodup
  apply this
  rw [question_texts_keys]
  exact firstSeenKeys_nodup qs qs.length

theorem map_fst_filter_len (m : List (String × List Nat)) (F : String → List Nat)
    (h : ∀ p ∈ m, p.2 = F p.1) :
    (m.filter (fun p => 1 < p.2.length)).map Prod.fst =
      (m.map Prod.fst).filter (fun t => 1 < (F t).length) := by
  induction m with
  | nil => rfl
  | cons p m ih =>
    have hp := h p (List.mem_cons_self p m)
    have hrest := ih (fun q hq => h q (List.mem_cons_of_mem p hq))
    rw [List.filter_cons, List.map_cons, List.filter_cons, hp]
    by_cases hc : 1 < (F p.1).length
    · simp [hc, hrest]
    · simp [hc, hrest]

theorem fd_keys {μ : Type} (qs : List (RecG μ)) :
    (find_duplicates qs).map Prod.fst =
      (firstSeenKeys qs qs.length).filter
        (fun t => 1 < (idxWith qs qs.length t).length) := by
  unfold find_duplicates
  rw [map_fst_filter_len (question_texts qs) (idxWith qs qs.length)
    (fun p hp => question_texts_grp (by rwa [Prod.mk.eta]))]
  rw [question_texts_keys]

/-! ### The composite priority order -/

theorem pkLt_iff (a b : PKey) :
    pkLt a b = true ↔
      (a.1 = false ∧ b.1 = true) ∨
      (a.1 = b.1 ∧ (a.2.1 < b.2.1 ∨ (a.2.1 = b.2.1 ∧ a.2.2 < b.2.2))) := by
  rcases a with ⟨u1, y1, m1⟩
  rcases b with ⟨u2, y2, m2⟩
  cases u1 <;> cases u2 <;> simp [pkLt]

theorem pkLt_trans {a b c : PKey} (h1 : pkLt a b = true) (h2 : pkLt b c = true) :
    pkLt a c = true := by
  rcases a with ⟨u1, y1, m1⟩
  rcases b with ⟨u2, y2, m2⟩
  rcases c with ⟨u3, y3, m3⟩
  rw [pkLt_iff] at h1 h2 ⊢
  cases u1 <;> cases u2 <;> cases u3 <;> simp_all <;> omega

theorem pkLt_eq_of_not {a b : PKey} (h1 : pkLt a b = false) (h2 : pkLt b a = false) :
    a = b := by
  rcases a with ⟨u1, y1, m1⟩
  rcases b with ⟨u2, y2, m2⟩
  have h1' : ¬ pkLt (u1, y1, m1) (u2, y2, m2) = true := by rw [h1]; exact Bool.false_ne_true
  have h2' : ¬ pkLt (u2, y2, m2) (u1, y1, m1) = true := by rw [h2]; exact Bool.false_ne_true
  rw [pkLt_iff] at h1' h2'
  push_neg at h1' h2'
  cases u1 <;> cases u2 <;> simp_all <;> omega

theorem pkLt_congr_left {a b c : PKey} (h : a = b) :
    pkLt a c = pkLt b c := by rw [h]

/-! ### Lemmas on the effectful map -/

theorem ok_bind {β γ : Type} (b : β) (g : β → Except PyErr γ) :
    (Except.ok b >>= g) = g b := rfl

theorem error_bind {β γ : Type} (e : PyErr) (g : β → Except PyErr γ) :
    ((Except.error e : Except PyErr β) >>= g) = Except.error e := rfl

theorem exMap_ok_forall2 {α β : Type} {f : α → Except PyErr β} :
    ∀ {l : List α} {ys : List β}, exMap f l = Except.ok ys →
      List.Forall₂ (fun a b => f a = Except.ok b) l ys := by
  intro l
  induction l with
  | nil =>
    intro ys h
    unfold exMap at h
    cases h
    exact List.Forall₂.nil
  | cons a l ih =>
    intro ys h
    unfold exMap at h
    cases hfa : f a with
    | error e => rw [hfa, error_bind] at h; cases h
    | ok b =>
      rw [hfa, ok_bind] at h
      cases hrest : exMap f l with
      | error e =>
        rw [hrest, error_bind] at h
        cases h
      | ok bs =>
        rw [hrest, ok_bind] at h
        cases h
        exact List.Forall₂.cons hfa (ih hrest)

theorem exMap_total {α β : Type} {f : α → Except PyErr β} :
    ∀ {l : List α}, (∀ a ∈ l, ∃ b, f a = Except.ok b) →
      ∃ ys, exMap f l = Except.ok ys := by
  intro l
  induction l with
  | nil => intro _; exact ⟨[], rfl⟩
  | cons a l ih =>
    intro h
    rcases h a (List.mem_cons_self a l) with ⟨b, hb⟩
    rcases ih (fun x hx => h x (List.mem_cons_of_mem a hx)) with ⟨bs, hbs⟩
    refine ⟨b :: bs, ?_⟩
    unfold exMap
    rw [hb, hbs]
    rfl

theorem forall2_mem_right {α β : Type} {rel : α → β → Prop} :
    ∀ {l : List α} {l' : List β}, List.Forall₂ rel l l' →
      ∀ b ∈ l', ∃ a ∈ l, rel a b := by
  intro l l' h
  induction h with
  | nil => intro b hb; simp at hb
  | cons ha _ ih =>
    intro b hb
    rcases List.mem_cons.1 hb with rfl | hb
    · exact ⟨_, List.mem_cons_self _ _, ha⟩
    · rcases ih b hb with ⟨a, hal, har⟩
      exact ⟨a, List.mem_cons_of_mem _ hal, har⟩

theorem forall2_mem_left {α β : Type} {rel : α → β → Prop} :
    ∀ {l : List α} {l' : List β}, List.Forall₂ rel l l' →
      ∀ a ∈ l, ∃ b ∈ l', rel a b := by
  intro l l' h
  induction h with
  | nil => intro a ha; simp at ha
  | cons ha _ ih =>
    intro a hal
    rcases List.mem_cons.1 hal with rfl | hal
    · exact ⟨_, List.mem_cons_self _ _, ha⟩
    · rcases ih a hal with ⟨b, hbl, hbr⟩
      exact ⟨b, List.mem_cons_of_mem _ hbl, hbr⟩

theorem forall2_pairwise {α β : Type} {rel : α → β → Prop}
    {R : α → α → Prop} {S : β → β → Prop}
    (comp : ∀ a b a' b', rel a b → rel a' b' → R a a' → S b b') :
    ∀ {l : List α} {l' : List β}, List.Forall₂ rel l l' →
      l.Pairwise R → l'.Pairwise S := by
  intro l l' h
  induction h with
  | nil => intro _; exact List.Pairwise.nil
  | cons ha hl ih =>
    intro hp
    rcases List.pairwise_cons.1 hp with ⟨hhead, htail⟩
    refine List.pairwise_cons.2 ⟨?_, ih htail⟩
    intro b hb
    rcases forall2_mem_right hl b hb with ⟨x, hxl, hxr⟩
    exact comp _ _ _ _ ha hxr (hhead x hxl)

/-! ### Characterization of the minimum fold of `select_canonical_version` -/

theorem selFold_spec {μ : Type} :
    ∀ (xs : List (PKey × Nat × RecG μ)) (x : PKey × Nat × RecG μ),
      (x :: xs).Pairwise (fun a b => a.2.1 < b.2.1) →
      (xs.foldl (fun best y => if pkLt y.1 best.1 then y else best) x) ∈ x :: xs ∧
      ∀ y ∈ x :: xs,
        pkLt (xs.foldl (fun best y => if pkLt y.1 best.1 then y else best) x).1 y.1 = true ∨
        ((xs.foldl (fun best y => if pkLt y.1 best.1 then y else best) x).1 = y.1 ∧
          (xs.foldl (fun best y => if pkLt y.1 best.1 then y else best) x).2.1 ≤ y.2.1) := by
  intro xs
  induction xs with
  | nil =>
    intro x _
    refine ⟨List.mem_singleton.2 rfl, ?_⟩
    intro y hy
    rcases List.mem_singleton.1 hy with rfl
    exact Or.inr ⟨rfl, le_refl _⟩
  | cons z xs ih =>
    intro x hp
    have hzlt : x.2.1 < z.2.1 :=
      (List.pairwise_cons.1 hp).1 z (List.mem_cons_self z xs)
    have hpz : (z :: xs).Pairwise (fun a b => a.2.1 < b.2.1) :=
      (List.pairwise_cons.1 hp).2
    have hp' : (x :: xs).Pairwise (fun a b => a.2.1 < b.2.1) := by
      rcases List.pairwise_cons.1 hp with ⟨hx, hzxs⟩
      rcases List.pairwise_cons.1 hzxs with ⟨_, hxs⟩
      exact List.pairwise_cons.2 ⟨fun b hb => hx b (List.mem_cons_of_mem z hb), hxs⟩
    by_cases hc : pkLt z.1 x.1 = true
    · have hfold : ((z :: xs).foldl (fun best y => if pkLt y.1 best.1 then y else best) x) =
          (xs.foldl (fun best y => if pkLt y.1 best.1 then y else best) z) := by
        rw [List.foldl_cons]
        congr 1
        show (if pkLt z.1 x.1 = true then z else x) = z
        exact if_pos hc
      rw [hfold]
      rcases ih z hpz with ⟨hmem, hmin⟩
      refine ⟨List.mem_cons_of_mem x hmem, ?_⟩
      intro y hy
      rcases List.mem_cons.1 hy with rfl | hy'
      · rcases hmin z (List.mem_cons_self z xs) with hlt | ⟨heq, _⟩
        · exact Or.inl (pkLt_trans hlt hc)
        · exact Or.inl (by rw [heq]; exact hc)
      · exact hmin y hy'
    · have hfold : ((z :: xs).foldl (fun best y => if pkLt y.1 best.1 then y else best) x) =
          (xs.foldl (fun best y => if pkLt y.1 best.1 then y else best) x) := by
        rw [List.foldl_cons]
        congr 1
        show (if pkLt z.1 x.1 = true then z else x) = x
        exact if_neg hc
      rw [hfold]
      rcases ih x hp' with ⟨hmem, hmin⟩
      constructor
      · rcases List.mem_cons.1 hmem with hr | hr
        · rw [hr]; exact List.mem_cons_self x (z :: xs)
        · exact List.mem_cons_of_mem x (List.mem_cons_of_mem z hr)
      · intro y hy
        have hrx := hmin x (List.mem_cons_self x xs)
        rcases List.mem_cons.1 hy with rfl | hy'
        · exact hrx
        · rcases List.mem_cons.1 hy' with rfl | hy''
          · by_cases hc2 : pkLt x.1 y.1 = true
            · rcases hrx with hlt | ⟨heq, _⟩
              · exact Or.inl (pkLt_trans hlt hc2)
              · exact Or.inl (by rw [heq]; exact hc2)
            · have hxy : x.1 = y.1 :=
                pkLt_eq_of_not (Bool.eq_false_iff.2 hc2) (Bool.eq_false_iff.2 hc)
              rcases hrx with hlt | ⟨heq, hle⟩
              · exact Or.inl (by rw [← hxy]; exact hlt)
              · exact Or.inr ⟨by rw [heq, hxy], by omega⟩
          · exact hmin y (List.mem_cons_of_mem x hy'')

theorem candF_ok {μ : Type} {qs : List (RecG μ)} {i : Nat} {c : Nat × RecG μ}
    (h : (do
        let q ← pyGet qs i
        Except.ok (i, q) : Except PyErr (Nat × RecG μ)) = Except.ok c) :
    c.1 = i ∧ qs.get? i = some c.2 := by
  cases hg : qs.get? i with
  | none =>
    rw [show pyGet qs i = Except.error PyErr.indexErr from by
      unfold pyGet; rw [hg], error_bind] at h
    cases h
  | some q =>
    rw [show pyGet qs i = Except.ok q from by
      unfold pyGet; rw [hg], ok_bind] at h
    cases h
    exact ⟨rfl, rfl⟩

theorem keyF_ok {μ : Type} {mt : μ → Bool} {c : Nat × RecG μ}
    {y : PKey × Nat × RecG μ}
    (h : (do
        let k ← priority_key mt c.2
        Except.ok (k, c) : Except PyErr (PKey × Nat × RecG μ)) = Except.ok y) :
    y.2 = c ∧ priority_key mt c.2 = Except.ok y.1 := by
  cases hk : priority_key mt c.2 with
  | error e => rw [hk, error_bind] at h; cases h
  | ok k =>
    rw [hk, ok_bind] at h
    cases h
    exact ⟨rfl, rfl⟩

/-- Characterization of `select_canonical_version`: when the candidate
indices are in range, ascending, and every candidate's priority key is
computable, the call succeeds and returns the first candidate whose
composite key is minimal — any other candidate either has a strictly
larger key or an equal key and a not-smaller original index. -/
theorem select_ok_spec {μ : Type} (mt : μ → Bool) (qs : List (RecG μ))
    (indices : List Nat) (hne : indices ≠ [])
    (hsort : indices.Pairwise (· < ·))
    (hok : ∀ i ∈ indices, ∃ q k, qs.get? i = some q ∧
      priority_key mt q = Except.ok k) :
    ∃ c cq ck, select_canonical_version mt qs indices = Except.ok (c, cq) ∧
      qs.get? c = some cq ∧ c ∈ indices ∧ priority_key mt cq = Except.ok ck ∧
      ∀ i qi ki, i ∈ indices → qs.get? i = some qi →
        priority_key mt qi = Except.ok ki →
        (pkLt ck ki = true ∨ (ck = ki ∧ c ≤ i)) := by
  have htotal1 : ∀ i ∈ indices, ∃ c, (do
      let q ← pyGet qs i
      Except.ok (i, q) : Except PyErr (Nat × RecG μ)) = Except.ok c := by
    intro i hi
    rcases hok i hi with ⟨q, k, hq, _⟩
    refine ⟨(i, q), ?_⟩
    rw [show pyGet qs i = Except.ok q from by unfold pyGet; rw [hq], ok_bind]
  obtain ⟨cands, hcands⟩ := exMap_total htotal1
  have hf2c := exMap_ok_forall2 hcands
  have htotal2 : ∀ c ∈ cands, ∃ kc, (do
      let k ← priority_key mt c.2
      Except.ok (k, c) : Except PyErr (PKey × Nat × RecG μ)) = Except.ok kc := by
    intro c hc
    rcases forall2_mem_right hf2c c hc with ⟨i, hi, hrel⟩
    rcases candF_ok hrel with ⟨_, hgc⟩
    rcases hok i hi with ⟨q, k, hq, hk⟩
    have hqc : q = c.2 := by
      rw [hq] at hgc
      exact Option.some.inj hgc
    refine ⟨(k, c), ?_⟩
    rw [show priority_key mt c.2 = Except.ok k from by rw [← hqc]; exact hk, ok_bind]
  obtain ⟨keyed, hkeyed⟩ := exMap_total htotal2
  have hf2k := exMap_ok_forall2 hkeyed
  cases keyed with
  | nil =>
    exfalso
    have h1 := hf2c.length_eq
    have h2 := hf2k.length_eq
    simp at h2
    rw [h2] at h1
    simp at h1
    exact hne h1
  | cons x xs =>
    have hsel : select_canonical_version mt qs indices =
        Except.ok ((xs.foldl (fun best y => if pkLt y.1 best.1 then y else best) x).2) := by
      unfold select_canonical_version
      rw [hcands, ok_bind, hkeyed, ok_bind]
    have hpwc : cands.Pairwise (fun c c' => c.1 < c'.1) := by
      refine forall2_pairwise ?_ hf2c hsort
      intro i c i' c' hrel hrel' hlt
      rw [(candF_ok hrel).1, (candF_ok hrel').1]
      exact hlt
    have hpw : (x :: xs).Pairwise (fun a b => a.2.1 < b.2.1) := by
      refine forall2_pairwise ?_ hf2k hpwc
      intro c y c' y' hrel hrel' hlt
      rw [(keyF_ok hrel).1, (keyF_ok hrel').1]
      exact hlt
    rcases selFold_spec xs x hpw with ⟨hmem, hmin⟩
    set r := xs.foldl (fun best y => if pkLt y.1 best.1 then y else best) x with hrdef
    rcases forall2_mem_right hf2k r hmem with ⟨cand, hcmem, hcrel⟩
    rcases keyF_ok hcrel with ⟨hy2, hyk⟩
    rcases forall2_mem_right hf2c cand hcmem with ⟨i0, hi0, hi0rel⟩
    rcases candF_ok hi0rel with ⟨hc1, hc2⟩
    refine ⟨r.2.1, r.2.2, r.1, ?_, ?_, ?_, ?_, ?_⟩
    · rw [hsel, Prod.mk.eta]
    · rw [hy2, hc1, hc2]
    · rw [hy2, hc1]
      exact hi0
    · rw [hy2]
      exact hyk
    · intro i qi ki hi hqi hki
      rcases forall2_mem_left hf2c i hi with ⟨ci, hcimem, hcirel⟩
      rcases candF_ok hcirel with ⟨hci1, hci2⟩
      have hqici : qi = ci.2 := by
        rw [hqi] at hci2
        exact Option.some.inj hci2
      rcases forall2_mem_left hf2k ci hcimem with ⟨yi, hyimem, hyirel⟩
      rcases keyF_ok hyirel with ⟨hyi2, hyik⟩
      have hkiyi : ki = yi.1 := by
        rw [← hqici, hki] at hyik
        exact Except.ok.inj hyik
      rcases hmin yi hyimem with hlt | ⟨heq, hle⟩
      · rw [hkiyi]
        exact Or.inl hlt
      · refine Or.inr ⟨by rw [hkiyi, heq], ?_⟩
        rw [hyi2, hci1] at hle
        exact hle

theorem selFold_mem {μ : Type} :
    ∀ (xs : List (PKey × Nat × RecG μ)) (x : PKey × Nat × RecG μ),
      (xs.foldl (fun best y => if pkLt y.1 best.1 then y else best) x) ∈ x :: xs := by
  intro xs
  induction xs with
  | nil => intro x; exact List.mem_singleton.2 rfl
  | cons z xs ih =>
    intro x
    rw [List.foldl_cons]
    by_cases hc : pkLt z.1 x.1 = true
    · rw [if_pos hc]
      exact List.mem_cons_of_mem x (ih z)
    · rw [if_neg hc]
      rcases List.mem_cons.1 (ih x) with hr | hr
      · rw [hr]
        exact List.mem_cons_self x (z :: xs)
      · exact List.mem_cons_of_mem x (List.mem_cons_of_mem z hr)

/-- Whenever `select_canonical_version` succeeds, the returned index is one
of the candidates and the returned record is the record at that index. -/
theorem select_ok_mem {μ : Type} {mt : μ → Bool} {qs : List (RecG μ)}
    {indices : List Nat} {c : Nat} {cq : RecG μ}
    (h : select_canonical_version mt qs indices = Except.ok (c, cq)) :
    c ∈ indices ∧ qs.get? c = some cq := by
  unfold select_canonical_version at h
  cases hcands : exMap (fun i => (do
      let q ← pyGet qs i
      Except.ok (i, q) : Except PyErr (Nat × RecG μ))) indices with
  | error e => rw [hcands, error_bind] at h; cases h
  | ok cands =>
    rw [hcands, ok_bind] at h
    cases hkeyed : exMap (fun c => (do
        let k ← priority_key mt c.2
        Except.ok (k, c) : Except PyErr (PKey × Nat × RecG μ))) cands with
    | error e => rw [hkeyed, error_bind] at h; cases h
    | ok keyed =>
      rw [hkeyed, ok_bind] at h
      cases keyed with
      | nil => cases h
      | cons x xs =>
        have hr : (xs.foldl (fun best y => if pkLt y.1 best.1 then y else best) x).2
            = (c, cq) := Except.ok.inj h
        have hmem := selFold_mem xs x
        rcases forall2_mem_right (exMap_ok_forall2 hkeyed) _ hmem with ⟨cand, hcmem, hcrel⟩
        rcases keyF_ok hcrel with ⟨hy2, _⟩
        rcases forall2_mem_right (exMap_ok_forall2 hcands) cand hcmem with ⟨i0, hi0, hi0rel⟩
        rcases candF_ok hi0rel with ⟨hc1, hc2⟩
        rw [hr] at hy2
        have hcc : c = i0 := by rw [← hc1, ← hy2]
        have hcq : qs.get? i0 = some cq := by
          rw [hc2, ← hy2]
        rw [hcc]
        exact ⟨hi0, hcq⟩

theorem priority_key_ok {μ : Type} (mt : μ → Bool) (q : RecG μ) {y : Int}
    (h : yearKey q.year = Except.ok y) :
    priority_key mt q = Except.ok (q.unit.getD "Unknown" == "Unknown", y,
      -(match q.metadata with
        | none => (0 : Int)
        | some m => if mt m then 1 else 0)) := by
  unfold priority_key
  rw [h, ok_bind]

theorem yearKey_none : yearKey none = Except.ok 9999 := rfl

theorem yearKey_blank : yearKey (some "") = Except.ok 9999 := rfl

theorem yearKey_num {s : String} {n : Int} (h : pyInt s = some n) :
    yearKey (some s) = Except.ok n := by
  by_cases hs : s = ""
  · subst hs
    have : pyInt "" = none := by decide
    rw [this] at h
    cases h
  · show (if s = "" then Except.ok 9999
      else match pyInt s with
        | some n => Except.ok n
        | none => Except.error PyErr.valueErr) = Except.ok n
    rw [if_neg hs, h]

/-- A year value on which line 68 cannot raise: absent, empty, or parseable. -/
def yearTotal (y : Option String) : Prop :=
  ∃ n, yearKey y = Except.ok n

theorem yearTotal_iff (y : Option String) :
    yearTotal y ↔ (y = none ∨ y = some "" ∨ ∃ s n, y = some s ∧ pyInt s = some n) := by
  constructor
  · rintro ⟨n, hn⟩
    cases y with
    | none => exact Or.inl rfl
    | some s =>
      by_cases hs : s = ""
      · exact Or.inr (Or.inl (by rw [hs]))
      · have hn' : (if s = "" then Except.ok 9999
            else match pyInt s with
              | some n => Except.ok n
              | none => Except.error PyErr.valueErr) = Except.ok n := hn
        rw [if_neg hs] at hn'
        cases hp : pyInt s with
        | none => rw [hp] at hn'; cases hn'
        | some m => exact Or.inr (Or.inr ⟨s, m, rfl, hp⟩)
  · rintro (rfl | rfl | ⟨s, n, rfl, hp⟩)
    · exact ⟨9999, rfl⟩
    · exact ⟨9999, rfl⟩
    · exact ⟨n, yearKey_num hp⟩

/-! ### Characterization of `merge_sources` -/

theorem mem_setIns {l : List String} {s x : String} :
    x ∈ setIns l s ↔ x ∈ l ∨ x = s := by
  unfold setIns
  by_cases h : s ∈ l
  · simp only [h, if_true]
    constructor
    · exact Or.inl
    · rintro (hs | rfl)
      · exact hs
      · exact h
  · simp [h]

theorem setIns_nodup {l : List String} {s : String} (h : l.Nodup) :
    (setIns l s).Nodup := by
  unfold setIns
  by_cases hs : s ∈ l
  · simpa [hs]
  · simp only [hs, if_false]
    simpa [List.nodup_append] using ⟨h, hs⟩

theorem sortStrings_sorted (l : List String) :
    (sortStrings l).Sorted (fun a b => a ≤ b) :=
  List.sorted_insertionSort _ l

theorem sortStrings_perm (l : List String) : (sortStrings l).Perm l :=
  List.perm_insertionSort _ l

theorem years_fold_mem {μ : Type} :
    ∀ (recs : List (Nat × RecG μ)) (acc : List String) (y : String),
      y ∈ recs.foldl (fun acc p =>
        match p.2.year with
        | some z => if z = "" then acc else setIns acc z
        | none => acc) acc ↔
      y ∈ acc ∨ (y ≠ "" ∧ ∃ p ∈ recs, p.2.year = some y) := by
  intro recs
  induction recs with
  | nil => intro acc y; simp
  | cons r recs ih =>
    intro acc y
    rw [List.foldl_cons, ih]
    cases hy : r.2.year with
    | none =>
      simp only []
      constructor
      · rintro (h | ⟨hne, p, hp, hpy⟩)
        · exact Or.inl h
        · exact Or.inr ⟨hne, p, List.mem_cons_of_mem r hp, hpy⟩
      · rintro (h | ⟨hne, p, hp, hpy⟩)
        · exact Or.inl h
        · rcases List.mem_cons.1 hp with rfl | hp'
          · rw [hy] at hpy; cases hpy
          · exact Or.inr ⟨hne, p, hp', hpy⟩
    | some z =>
      simp only []
      by_cases hz : z = ""
      · rw [if_pos hz]
        constructor
        · rintro (h | ⟨hne, p, hp, hpy⟩)
          · exact Or.inl h
          · exact Or.inr ⟨hne, p, List.mem_cons_of_mem r hp, hpy⟩
        · rintro (h | ⟨hne, p, hp, hpy⟩)
          · exact Or.inl h
          · rcases List.mem_cons.1 hp with rfl | hp'
            · rw [hy] at hpy
              rw [hz] at hpy
              cases hpy
              exact absurd rfl hne
            · exact Or.inr ⟨hne, p, hp', hpy⟩
      · rw [if_neg hz]
        constructor
        · rintro (h | ⟨hne, p, hp, hpy⟩)
          · rcases mem_setIns.1 h with h' | rfl
            · exact Or.inl h'
            · exact Or.inr ⟨hz, r, List.mem_cons_self r recs, hy⟩
          · exact Or.inr ⟨hne, p, List.mem_cons_of_mem r hp, hpy⟩
        · rintro (h | ⟨hne, p, hp, hpy⟩)
          · exact Or.inl (mem_setIns.2 (Or.inl h))
          · rcases List.mem_cons.1 hp with rfl | hp'
            · rw [hy] at hpy
              cases hpy
              exact Or.inl (mem_setIns.2 (Or.inr rfl))
            · exact Or.inr ⟨hne, p, hp', hpy⟩

theorem years_fold_nodup {μ : Type} :
    ∀ (recs : List (Nat × RecG μ)) (acc : List String), acc.Nodup →
      (recs.foldl (fun acc p =>
        match p.2.year with
        | some z => if z = "" then acc else setIns acc z
        | none => acc) acc).Nodup := by
  intro recs
  induction recs with
  | nil => intro acc h; exact h
  | cons r recs ih =>
    intro acc h
    rw [List.foldl_cons]
    apply ih
    cases r.2.year with
    | none => exact h
    | some z =>
      simp only []
      by_cases hz : z = ""
      · rw [if_pos hz]; exact h
      · rw [if_neg hz]; exact setIns_nodup h

theorem files_fold_mem {μ : Type} :
    ∀ (recs : List (Nat × RecG μ)) (acc : List String) (s : String),
      s ∈ recs.foldl (fun acc p =>
        match p.2.source_file with
        | some z => if z = "" then acc else setIns acc z
        | none => acc) acc ↔
      s ∈ acc ∨ (s ≠ "" ∧ ∃ p ∈ recs, p.2.source_file = some s) := by
  intro recs
  induction recs with
  | nil => intro acc s; simp
  | cons r recs ih =>
    intro acc s
    rw [List.foldl_cons, ih]
    cases hy : r.2.source_file with
    | none =>
      simp only []
      constructor
      · rintro (h | ⟨hne, p, hp, hpy⟩)
        · exact Or.inl h
        · exact Or.inr ⟨hne, p, List.mem_cons_of_mem r hp, hpy⟩
      · rintro (h | ⟨hne, p, hp, hpy⟩)
        · exact Or.inl h
        · rcases List.mem_cons.1 hp with rfl | hp'
          · rw [hy] at hpy; cases hpy
          · exact Or.inr ⟨hne, p, hp', hpy⟩
    | some z =>
      simp only []
      by_cases hz : z = ""
      · rw [if_pos hz]
        constructor
        · rintro (h | ⟨hne, p, hp, hpy⟩)
          · exact Or.inl h
          · exact Or.inr ⟨hne, p, List.mem_cons_of_mem r hp, hpy⟩
        · rintro (h | ⟨hne, p, hp, hpy⟩)
          · exact Or.inl h
          · rcases List.mem_cons.1 hp with rfl | hp'
            · rw [hy] at hpy
              rw [hz] at hpy
              cases hpy
              exact absurd rfl hne
            · exact Or.inr ⟨hne, p, hp', hpy⟩
      · rw [if_neg hz]
        constructor
        · rintro (h | ⟨hne, p, hp, hpy⟩)
          · rcases mem_setIns.1 h with h' | rfl
            · exact Or.inl h'
            · exact Or.inr ⟨hz, r, List.mem_cons_self r recs, hy⟩
          · exact Or.inr ⟨hne, p, List.mem_cons_of_mem r hp, hpy⟩
        · rintro (h | ⟨hne, p, hp, hpy⟩)
          · exact Or.inl (mem_setIns.2 (Or.inl h))
          · rcases List.mem_cons.1 hp with rfl | hp'
            · rw [hy] at hpy
              cases hpy
              exact Or.inl (mem_setIns.2 (Or.inr rfl))
            · exact Or.inr ⟨hne, p, hp', hpy⟩

theorem files_fold_nodup {μ : Type} :
    ∀ (recs : List (Nat × RecG μ)) (acc : List String), acc.Nodup →
      (recs.foldl (fun acc p =>
        match p.2.source_file with
        | some z => if z = "" then acc else setIns acc z
        | none => acc) acc).Nodup := by
  intro recs
  induction recs with
  | nil => intro acc h; exact h
  | cons r recs ih =>
    intro acc h
    rw [List.foldl_cons]
    apply ih
    cases r.2.source_file with
    | none => exact h
    | some z =>
      simp only []
      by_cases hz : z = ""
      · rw [if_pos hz]; exact h
      · rw [if_neg hz]; exact setIns_nodup h

/-- Characterization of `merge_sources` on in-range indices: it succeeds,
`all_sources` lists one entry per index in input order with fields copied
verbatim (absent stays absent), `duplicate_count` counts the indices, and
the two set fields are the sorted duplicate-free lists of the present
non-empty years and source files. -/
theorem merge_sources_spec {μ : Type} (qs : List (RecG μ)) (indices : List Nat)
    (hval : ∀ i ∈ indices, ∃ q, qs.get? i = some q) :
    ∃ ms, merge_sources qs indices = Except.ok ms ∧
      ms.duplicate_count = indices.length ∧
      List.Forall₂ (fun i e => ∃ q, qs.get? i = some q ∧
        e = SourceEntry.mk q.year q.source_file q.question_number i)
        indices ms.all_sources ∧
      ms.years_found.Sorted (fun a b => a ≤ b) ∧ ms.years_found.Nodup ∧
      (∀ y, y ∈ ms.years_found ↔
        (y ≠ "" ∧ ∃ i ∈ indices, ∃ q, qs.get? i = some q ∧ q.year = some y)) ∧
      ms.source_pdfs.Sorted (fun a b => a ≤ b) ∧ ms.source_pdfs.Nodup ∧
      (∀ s, s ∈ ms.source_pdfs ↔
        (s ≠ "" ∧ ∃ i ∈ indices, ∃ q, qs.get? i = some q ∧ q.source_file = some s)) := by
  have htotal : ∀ i ∈ indices, ∃ c, (do
      let q ← pyGet qs i
      Except.ok (i, q) : Except PyErr (Nat × RecG μ)) = Except.ok c := by
    intro i hi
    rcases hval i hi with ⟨q, hq⟩
    refine ⟨(i, q), ?_⟩
    rw [show pyGet qs i = Except.ok q from by unfold pyGet; rw [hq], ok_bind]
  obtain ⟨recs, hrecs⟩ := exMap_total htotal
  have hf2 := exMap_ok_forall2 hrecs
  have hmerge : merge_sources qs indices = Except.ok (MergedSources.mk
      (sortStrings (recs.foldl (fun acc p =>
        match p.2.source_file with
        | some s => if s = "" then acc else setIns acc s
        | none => acc) []))
      (sortStrings (recs.foldl (fun acc p =>
        match p.2.year with
        | some y => if y = "" then acc else setIns acc y
        | none => acc) []))
      (recs.map (fun p =>
        SourceEntry.mk p.2.year p.2.source_file p.2.question_number p.1))
      indices.length) := by
    unfold merge_sources
    rw [hrecs, ok_bind]
  refine ⟨_, hmerge, rfl, ?_, ?_, ?_, ?_, ?_, ?_, ?_⟩
  · rw [List.forall₂_map_right_iff]
    refine hf2.imp ?_
    intro i p hrel
    rcases candF_ok hrel with ⟨h1, h2⟩
    exact ⟨p.2, h2, by rw [h1]⟩
  · exact sortStrings_sorted _
  · show (sortStrings (recs.foldl (fun acc p =>
        match p.2.year with
        | some y => if y = "" then acc else setIns acc y
        | none => acc) [])).Nodup
    exact (sortStrings_perm _).symm.nodup (years_fold_nodup recs [] List.nodup_nil)
  · intro y
    rw [(sortStrings_perm _).mem_iff, years_fold_mem]
    simp only [List.not_mem_nil, false_or]
    constructor
    · rintro ⟨hne, p, hp, hpy⟩
      rcases forall2_mem_right hf2 p hp with ⟨i, hi, hrel⟩
      rcases candF_ok hrel with ⟨h1, h2⟩
      exact ⟨hne, i, hi, p.2, h2, hpy⟩
    · rintro ⟨hne, i, hi, q, hq, hqy⟩
      rcases forall2_mem_left hf2 i hi with ⟨p, hp, hrel⟩
      rcases candF_ok hrel with ⟨h1, h2⟩
      have : q = p.2 := by
        rw [hq] at h2
        exact Option.some.inj h2
      exact ⟨hne, p, hp, by rw [← this]; exact hqy⟩
  · exact sortStrings_sorted _
  · show (sortStrings (recs.foldl (fun acc p =>
        match p.2.source_file with
        | some s => if s = "" then acc else setIns acc s
        | none => acc) [])).Nodup
    exact (sortStrings_perm _).symm.nodup (files_fold_nodup recs [] List.nodup_nil)
  · intro s
    rw [(sortStrings_perm _).mem_iff, files_fold_mem]
    simp only [List.not_mem_nil, false_or]
    constructor
    · rintro ⟨hne, p, hp, hps⟩
      rcases forall2_mem_right hf2 p hp with ⟨i, hi, hrel⟩
      rcases candF_ok hrel with ⟨h1, h2⟩
      exact ⟨hne, i, hi, p.2, h2, hps⟩
    · rintro ⟨hne, i, hi, q, hq, hqs⟩
      rcases forall2_mem_left hf2 i hi with ⟨p, hp, hrel⟩
      rcases candF_ok hrel with ⟨h1, h2⟩
      have : q = p.2 := by
        rw [hq] at h2
        exact Option.some.inj h2
      exact ⟨hne, p, hp, by rw [← this]; exact hqs⟩

/-! ### Structure of a successful deduplication run -/

/-- Canonical indices recorded in the report, in group order. -/
def canonsOf (rpt : Report) : List Nat :=
  rpt.duplicate_groups.map (fun a => a.canonical_index)

/-- Non-canonical duplicate indices discarded by the run (line 159-161). -/
def removedOf (rpt : Report) : List Nat :=
  rpt.duplicate_groups.flatMap (fun a =>
    a.duplicate_indices.filter (fun i => i ≠ a.canonical_index))

/-- Indices emitted by the second pass (line 172-179): all positions except
the removed and canonical ones, ascending. -/
def keptOf (qs : List QRec) (rpt : Report) : List Nat :=
  (List.range qs.length).filter
    (fun i => ¬(i ∈ removedOf rpt ∨ i ∈ canonsOf rpt))

theorem processGroup_ok {qs : List QRec} {g : String × List Nat}
    {er : QRec} {a : GroupAudit}
    (h : processGroup qs g = Except.ok (er, a)) :
    ∃ c cq ms, select_canonical_version metaNonEmpty qs g.2 = Except.ok (c, cq) ∧
      merge_sources qs g.2 = Except.ok ms ∧
      er = enhanceQ cq ms ∧ a = GroupAudit.mk c cq.unit cq.year g.2 ms := by
  unfold processGroup at h
  cases hsel : select_canonical_version metaNonEmpty qs g.2 with
  | error e => rw [hsel, error_bind] at h; cases h
  | ok c =>
    rw [hsel, ok_bind] at h
    cases hms : merge_sources qs g.2 with
    | error e => rw [hms, error_bind] at h; cases h
    | ok ms =>
      rw [hms, ok_bind] at h
      have h2 := Except.ok.inj h
      refine ⟨c.1, c.2, ms, by rw [Prod.mk.eta], rfl, ?_, ?_⟩
      · exact (congrArg Prod.fst h2).symm
      · exact (congrArg Prod.snd h2).symm

theorem forall2_and_left {α β : Type} {rel : α → β → Prop} {P : α → Prop} :
    ∀ {l : List α} {l' : List β}, List.Forall₂ rel l l' → (∀ a ∈ l, P a) →
      List.Forall₂ (fun a b => rel a b ∧ P a) l l' := by
  intro l l' h
  induction h with
  | nil => intro _; exact List.Forall₂.nil
  | cons ha _ ih =>
    intro hp
    exact List.Forall₂.cons ⟨ha, hp _ (List.mem_cons_self _ _)⟩
      (ih (fun a hal => hp a (List.mem_cons_of_mem _ hal)))

theorem deduplicate_ok_struct {qs : List QRec} {out : List QRec} {rpt : Report}
    (h : deduplicate_questions qs = Except.ok (out, rpt)) :
    ∃ processed,
      exMap (processGroup qs) (find_duplicates qs) = Except.ok processed ∧
      rpt.duplicate_groups = processed.map Prod.snd ∧
      out = processed.map Prod.fst ++ qs.enum.filterMap (fun p =>
        if p.1 ∈ removedOf rpt ∨ p.1 ∈ canonsOf rpt then none
        else some (tagNonDup p.2)) ∧
      rpt.total_original = qs.length ∧
      rpt.total_duplicates_found = (find_duplicates qs).length ∧
      rpt.total_duplicate_instances =
        ((find_duplicates qs).map (fun g => g.2.length - 1)).sum ∧
      rpt.total_after_deduplication = out.length ∧
      rpt.questions_removed = (qs.length : Int) - (out.length : Int) := by
  unfold deduplicate_questions at h
  cases hproc : exMap (processGroup qs) (find_duplicates qs) with
  | error e => rw [hproc, error_bind] at h; cases h
  | ok processed =>
    rw [hproc, ok_bind] at h
    have h2 := Except.ok.inj h
    have hout := (congrArg Prod.fst h2).symm
    have hrpt := (congrArg Prod.snd h2).symm
    subst hout
    subst hrpt
    exact ⟨processed, rfl, rfl, rfl, rfl, rfl, rfl, rfl, rfl⟩

/-- The second pass over the enumerated corpus equals a map over the
filtered ascending index range (`sorted(indices_to_keep)` minus the
canonical indices). -/
theorem enum_filterMap_spec {β : Type} (P : Nat → Prop) [DecidablePred P]
    (f : QRec → β) :
    ∀ (qs : List QRec),
      qs.enum.filterMap (fun pr => if P pr.1 then none else some (f pr.2)) =
      ((List.range qs.length).filter (fun i => ¬ P i)).map
        (fun i => f (qs.getD i dfltQ)) := by
  intro qs
  induction qs using List.reverseRecOn with
  | nil => rfl
  | append_singleton l a ih =>
    rw [List.enum_append, List.filterMap_append, ih]
    have hlen : (l ++ [a]).length = l.length + 1 := by simp
    rw [hlen, List.range_succ, List.filter_append, List.map_append]
    congr 1
    · apply List.map_congr_left
      intro i hi
      rcases List.mem_filter.1 hi with ⟨hir, _⟩
      have hilt : i < l.length := List.mem_range.1 hir
      rw [List.getD_append _ _ _ _ hilt]
    · show List.filterMap _ ([a].enumFrom l.length) = _
      have : [a].enumFrom l.length = [(l.length, a)] := rfl
      rw [this]
      have hget : (l ++ [a]).getD l.length dfltQ = a := by
        unfold List.getD
        rw [List.get?_append_right (le_refl l.length)]
        simp
      by_cases hp : P l.length
      · rw [show (List.filterMap (fun pr => if P pr.1 then none else some (f pr.2))
            [(l.length, a)]) = [] from by
          rw [List.filterMap_cons]
          rw [if_pos hp]
          rfl]
        rw [show (List.filter (fun i => ¬ P i) [l.length]) = [] from by
          rw [List.filter_cons]
          simp [hp]]
        rfl
      · rw [show (List.filterMap (fun pr => if P pr.1 then none else some (f pr.2))
            [(l.length, a)]) = [f a] from by
          rw [List.filterMap_cons]
          rw [if_neg hp]
          rfl]
        rw [show (List.filter (fun i => ¬ P i) [l.length]) = [l.length] from by
          rw [List.filter_cons]
          simp [hp]]
        rw [List.map_cons, hget]
        rfl

/-- The rich group/audit correspondence of a successful run. -/
theorem dedup_forall2 {qs : List QRec} {out : List QRec} {rpt : Report}
    (h : deduplicate_questions qs = Except.ok (out, rpt)) :
    List.Forall₂ (fun g a =>
      a.duplicate_indices = g.2 ∧ a.canonical_index ∈ g.2 ∧
      g.2 = idxWith qs qs.length g.1 ∧ 1 < g.2.length)
      (find_duplicates qs) rpt.duplicate_groups := by
  obtain ⟨processed, hproc, hgroups, -, -, -, -, -, -⟩ := deduplicate_ok_struct h
  have hf2 := exMap_ok_forall2 hproc
  have hf2' := forall2_and_left hf2
    (fun g hg => fd_grp (t := g.1) (l := g.2) (by rwa [Prod.mk.eta]))
  rw [hgroups, List.forall₂_map_right_iff]
  refine hf2'.imp ?_
  rintro g pr ⟨hpg, hfd1, hfd2⟩
  have hpg' : processGroup qs g = Except.ok (pr.1, pr.2) := by
    rwa [Prod.mk.eta]
  obtain ⟨c, cq, ms, hsel, hms, her, ha⟩ := processGroup_ok hpg'
  have hcmem : c ∈ g.2 := (select_ok_mem hsel).1
  refine ⟨?_, ?_, hfd1, hfd2⟩
  · rw [ha]
  · rw [ha]
    exact hcmem

/-- Every original index is accounted for exactly once: the canonical
indices, the kept non-duplicate indices and the removed non-canonical
duplicate indices together are a permutation of the full index range. -/
theorem dedup_perm {qs : List QRec} {rpt : Report}
    (hf2 : List.Forall₂ (fun g a =>
      a.duplicate_indices = g.2 ∧ a.canonical_index ∈ g.2 ∧
      g.2 = idxWith qs qs.length g.1 ∧ 1 < g.2.length)
      (find_duplicates qs) rpt.duplicate_groups) :
    ((canonsOf rpt ++ keptOf qs rpt) ++ removedOf rpt).Perm
      (List.range qs.length) := by
  have haudit : ∀ a ∈ rpt.duplicate_groups, ∃ t,
      a.duplicate_indices = idxWith qs qs.length t ∧
      a.canonical_index ∈ a.duplicate_indices ∧
      1 < a.duplicate_indices.length := by
    intro a ha
    rcases forall2_mem_right hf2 a ha with ⟨g, hg, h1, h2, h3, h4⟩
    exact ⟨g.1, by rw [h1, h3], by rw [h1]; exact h2, by rw [h1]; exact h4⟩
  have hDpair : (find_duplicates qs).Pairwise (fun g g' => g.1 ≠ g'.1) :=
    List.pairwise_map.1 (fd_keys_nodup qs)
  have hdisj : rpt.duplicate_groups.Pairwise (fun a a' =>
      ∀ x, x ∈ a.duplicate_indices → x ∉ a'.duplicate_indices) := by
    refine forall2_pairwise ?_ hf2 hDpair
    rintro g a g' a' ⟨h1, _, h3, _⟩ ⟨h1', _, h3', _⟩ hne x hx hx'
    rw [h1, h3] at hx
    rw [h1', h3'] at hx'
    exact hne (idxWith_disjoint hx hx')
  have hcpair : rpt.duplicate_groups.Pairwise (fun a a' =>
      a.canonical_index ≠ a'.canonical_index) := by
    refine forall2_pairwise ?_ hf2 hDpair
    rintro g a g' a' ⟨h1, h2, h3, _⟩ ⟨h1', h2', h3', _⟩ hne hc
    rw [h3] at h2
    rw [h3'] at h2'
    rw [hc] at h2
    exact hne (idxWith_disjoint h2 h2')
  have hcnodup : (canonsOf rpt).Nodup := by
    unfold canonsOf
    exact List.pairwise_map.2 hcpair
  have hrnodup : (removedOf rpt).Nodup := by
    unfold removedOf
    rw [List.nodup_flatMap]
    constructor
    · intro a ha
      rcases haudit a ha with ⟨t, h1, _, _⟩
      refine List.Nodup.filter _ ?_
      rw [h1]
      exact idxWith_nodup qs qs.length t
    · refine hdisj.imp ?_
      intro a a' hs x hx hx'
      rcases List.mem_filter.1 hx with ⟨hx1, _⟩
      rcases List.mem_filter.1 hx' with ⟨hx1', _⟩
      exact hs x hx1 hx1'
  have hknodup : (keptOf qs rpt).Nodup :=
    (List.nodup_range _).filter _
  have hsymm : Symmetric (fun (a a' : GroupAudit) =>
      ∀ x, x ∈ a.duplicate_indices → x ∉ a'.duplicate_indices) := by
    intro a a' hs x hx hx'
    exact hs x hx' hx
  have hcanon_range : ∀ x ∈ canonsOf rpt, x < qs.length := by
    intro x hx
    rcases List.mem_map.1 hx with ⟨a, ha, rfl⟩
    rcases haudit a ha with ⟨t, h1, h2, _⟩
    rw [h1] at h2
    exact (mem_idxWith.1 h2).1
  have hrem_range : ∀ x ∈ removedOf rpt, x < qs.length := by
    intro x hx
    rcases List.mem_flatMap.1 hx with ⟨a, ha, hxa⟩
    rcases List.mem_filter.1 hxa with ⟨hx1, _⟩
    rcases haudit a ha with ⟨t, h1, _, _⟩
    rw [h1] at hx1
    exact (mem_idxWith.1 hx1).1
  have hcr : List.Disjoint (canonsOf rpt) (removedOf rpt) := by
    intro x hxc hxr
    rcases List.mem_map.1 hxc with ⟨a, ha, hax⟩
    rcases List.mem_flatMap.1 hxr with ⟨a', ha', hxa'⟩
    rcases List.mem_filter.1 hxa' with ⟨hx1, hx2⟩
    have hxne : x ≠ a'.canonical_index := by simpa using hx2
    by_cases hval : a = a'
    · rw [← hval] at hxne
      exact hxne hax.symm
    · have hs := List.Pairwise.forall hsymm hdisj ha ha' hval
      rcases haudit a ha with ⟨t, h1, h2, _⟩
      rw [hax] at h2
      exact hs x h2 hx1
  have hck : List.Disjoint (canonsOf rpt) (keptOf qs rpt) := by
    intro x hxc hxk
    rcases List.mem_filter.1 hxk with ⟨_, hpred⟩
    simp only [decide_not] at hpred
    have : ¬(x ∈ removedOf rpt ∨ x ∈ canonsOf rpt) := by
      simpa using hpred
    exact this (Or.inr hxc)
  have hkr : List.Disjoint (keptOf qs rpt) (removedOf rpt) := by
    intro x hxk hxr
    rcases List.mem_filter.1 hxk with ⟨_, hpred⟩
    have : ¬(x ∈ removedOf rpt ∨ x ∈ canonsOf rpt) := by
      simpa using hpred
    exact this (Or.inl hxr)
  have hnodup : ((canonsOf rpt ++ keptOf qs rpt) ++ removedOf rpt).Nodup := by
    rw [List.nodup_append]
    refine ⟨?_, hrnodup, ?_⟩
    · rw [List.nodup_append]
      exact ⟨hcnodup, hknodup, hck⟩
    · intro x hx
      rcases List.mem_append.1 hx with hx | hx
      · exact hcr hx
      · exact hkr hx
  refine (List.perm_ext_iff_of_nodup hnodup (List.nodup_range _)).2 ?_
  intro x
  constructor
  · intro hx
    rcases List.mem_append.1 hx with hx | hx
    · rcases List.mem_append.1 hx with hx | hx
      · exact List.mem_range.2 (hcanon_range x hx)
      · exact List.mem_range.2 (List.mem_range.1 (List.mem_filter.1 hx).1)
    · exact List.mem_range.2 (hrem_range x hx)
  · intro hx
    by_cases hc : x ∈ removedOf rpt ∨ x ∈ canonsOf rpt
    · rcases hc with hc | hc
      · exact List.mem_append.2 (Or.inr hc)
      · exact List.mem_append.2 (Or.inl (List.mem_append.2 (Or.inl hc)))
    · refine List.mem_append.2 (Or.inl (List.mem_append.2 (Or.inr ?_)))
      unfold keptOf
      rw [List.mem_filter]
      exact ⟨hx, by simpa using hc⟩

theorem forall2_map_eq {α β γ : Type} {rel : α → β → Prop} {f : α → γ} {g : β → γ}
    (hfg : ∀ a b, rel a b → f a = g b) :
    ∀ {l : List α} {l' : List β}, List.Forall₂ rel l l' → l.map f = l'.map g := by
  intro l l' h
  induction h with
  | nil => rfl
  | cons ha _ ih => simp only [List.map_cons, hfg _ _ ha, ih]

/-- The output of a successful run in closed form: the enhanced canonical
records in group order, then the tagged non-duplicates in ascending index
order. -/
theorem dedup_out_structure {qs : List QRec} {out : List QRec} {rpt : Report}
    (h : deduplicate_questions qs = Except.ok (out, rpt)) :
    out = rpt.duplicate_groups.map (fun a =>
        enhanceQ (qs.getD a.canonical_index dfltQ) a.merged_sources) ++
      (keptOf qs rpt).map (fun i => tagNonDup (qs.getD i dfltQ)) := by
  obtain ⟨processed, hproc, hgroups, hout, -, -, -, -, -⟩ := deduplicate_ok_struct h
  have hf2 := exMap_ok_forall2 hproc
  have hfst : processed.map Prod.fst = rpt.duplicate_groups.map (fun a =>
      enhanceQ (qs.getD a.canonical_index dfltQ) a.merged_sources) := by
    rw [hgroups, List.map_map]
    apply List.map_congr_left
    intro pr hpr
    rcases forall2_mem_right hf2 pr hpr with ⟨g, hg, hrel⟩
    have hrel' : processGroup qs g = Except.ok (pr.1, pr.2) := by rwa [Prod.mk.eta]
    obtain ⟨c, cq, ms, hsel, hms, her, ha⟩ := processGroup_ok hrel'
    have hget := (select_ok_mem hsel).2
    have hgetd : qs.getD c dfltQ = cq := by
      unfold List.getD
      rw [hget]
      rfl
    show pr.1 = enhanceQ (qs.getD (Prod.snd pr).canonical_index dfltQ)
      (Prod.snd pr).merged_sources
    rw [her, ha]
    simp only []
    rw [hgetd]
  have hrest : qs.enum.filterMap (fun p =>
      if p.1 ∈ removedOf rpt ∨ p.1 ∈ canonsOf rpt then none
      else some (tagNonDup p.2)) =
      (keptOf qs rpt).map (fun i => tagNonDup (qs.getD i dfltQ)) := by
    exact enum_filterMap_spec (fun i => i ∈ removedOf rpt ∨ i ∈ canonsOf rpt)
      tagNonDup qs
  rw [hout, hfst, hrest]

/-- A position is removed-or-canonical exactly when it belongs to a
duplicate group (its key occurs at least twice). -/
theorem mem_removed_or_canons {qs : List QRec} {rpt : Report}
    (hf2 : List.Forall₂ (fun g a =>
      a.duplicate_indices = g.2 ∧ a.canonical_index ∈ g.2 ∧
      g.2 = idxWith qs qs.length g.1 ∧ 1 < g.2.length)
      (find_duplicates qs) rpt.duplicate_groups)
    (i : Nat) (hi : i < qs.length) :
    (i ∈ removedOf rpt ∨ i ∈ canonsOf rpt) ↔ isDupPos qs i := by
  constructor
  · intro hc
    have hmem : ∃ a ∈ rpt.duplicate_groups, i ∈ a.duplicate_indices := by
      rcases hc with hc | hc
      · rcases List.mem_flatMap.1 hc with ⟨a, ha, hia⟩
        exact ⟨a, ha, (List.mem_filter.1 hia).1⟩
      · rcases List.mem_map.1 hc with ⟨a, ha, hax⟩
        rcases forall2_mem_right hf2 a ha with ⟨g, hg, h1, h2, h3, h4⟩
        refine ⟨a, ha, ?_⟩
        rw [hax] at h2
        rwa [h1]
    rcases hmem with ⟨a, ha, hia⟩
    rcases forall2_mem_right hf2 a ha with ⟨g, hg, h1, h2, h3, h4⟩
    rw [h1, h3] at hia
    rcases mem_idxWith.1 hia with ⟨_, hkey⟩
    unfold isDupPos
    rw [hkey]
    rw [h3] at h4
    exact h4
  · intro hdup
    unfold isDupPos at hdup
    have hfd := fd_mem hdup
    rcases forall2_mem_left hf2 _ hfd with ⟨a, ha, h1, h2, h3, h4⟩
    have hia : i ∈ a.duplicate_indices := by
      rw [h1]
      exact mem_idxWith.2 ⟨hi, rfl⟩
    by_cases hcan : i = a.canonical_index
    · refine Or.inr (List.mem_map.2 ⟨a, ha, hcan.symm⟩)
    · refine Or.inl (List.mem_flatMap.2 ⟨a, ha, ?_⟩)
      rw [List.mem_filter]
      exact ⟨hia, by simpa using hcan⟩

instance {α : Type} [DecidableEq α] : DecidableEq (Except PyErr α) := fun a b => by
  cases a with
  | error e =>
    cases b with
    | error f =>
      exact if h : e = f then isTrue (by rw [h])
        else isFalse (fun hc => h (Except.error.inj hc))
    | ok w => exact isFalse (fun hc => Except.noConfusion hc)
  | ok v =>
    cases b with
    | error f => exact isFalse (fun hc => Except.noConfusion hc)
    | ok w =>
      exact if h : v = w then isTrue (by rw [h])
        else isFalse (fun hc => h (Except.ok.inj hc))

/-! ### Claim theorems -/

/-- C1: each original index 0..N-1 is accounted for exactly once by a run of
`deduplicate_questions`: the canonical indices (one per duplicate group,
each a member of its group), the kept non-duplicate indices, and the removed
non-canonical duplicate indices are a permutation of the full index range,
and the output emits exactly one record per canonical index plus one per
kept index — no index is emitted twice and none is dropped silently. -/
theorem C1_index_conservation (qs : List QRec) (out : List QRec) (rpt : Report)
    (h : deduplicate_questions qs = Except.ok (out, rpt)) :
    ((canonsOf rpt ++ keptOf qs rpt) ++ removedOf rpt).Perm
      (List.range qs.length) ∧
    out.length = (canonsOf rpt).length + (keptOf qs rpt).length ∧
    ∀ a ∈ rpt.duplicate_groups, a.canonical_index ∈ a.duplicate_indices := by
  have hf2 := dedup_forall2 h
  refine ⟨dedup_perm hf2, ?_, ?_⟩
  · rw [dedup_out_structure h]
    rw [List.length_append, List.length_map, List.length_map]
    unfold canonsOf
    rw [List.length_map]
  · intro a ha
    rcases forall2_mem_right hf2 a ha with ⟨g, hg, h1, h2, _, _⟩
    rw [h1]
    exact h2

/-- Record with only a question text (helper for concrete examples). -/
def mkq (s : String) : QRec :=
  RecG.mk (some s) none none none none none none []

def c1qs : List QRec := [mkq "a", mkq "a", mkq "b"]

def c1out : List QRec :=
  match deduplicate_questions c1qs with
  | Except.ok p => p.1
  | Except.error _ => []

def c1rpt : Report :=
  match deduplicate_questions c1qs with
  | Except.ok p => p.2
  | Except.error _ => Report.mk 0 0 0 [] 0 0

/-- Witness for C1 at a concrete three-record corpus with one duplicate
pair. -/
theorem C1_witness :
    deduplicate_questions c1qs = Except.ok (c1out, c1rpt) ∧
    (((canonsOf c1rpt ++ keptOf c1qs c1rpt) ++ removedOf c1rpt).Perm
        (List.range c1qs.length) ∧
      c1out.length = (canonsOf c1rpt).length + (keptOf c1qs c1rpt).length ∧
      ∀ a ∈ c1rpt.duplicate_groups, a.canonical_index ∈ a.duplicate_indices) :=
  ⟨rfl, C1_index_conservation c1qs c1out c1rpt rfl⟩

theorem length_filter_ne {l : List Nat} {c : Nat} (hnodup : l.Nodup)
    (hc : c ∈ l) :
    (l.filter (fun i => i ≠ c)).length = l.length - 1 := by
  induction l with
  | nil => simp at hc
  | cons a l ih =>
    rcases List.nodup_cons.1 hnodup with ⟨hal, hln⟩
    rw [List.filter_cons]
    by_cases hac : a = c
    · have : (decide (a ≠ c)) = false := by simp [hac]
      rw [this, if_neg Bool.false_ne_true]
      have hfl : l.filter (fun i => i ≠ c) = l := by
        rw [List.filter_eq_self]
        intro x hx
        simp only [decide_eq_true_eq]
        intro hxc
        rw [hxc, ← hac] at hx
        exact hal hx
      rw [hfl]
      simp
    · have : (decide (a ≠ c)) = true := by simp [hac]
      rw [this, if_pos rfl]
      have hcl : c ∈ l := by
        rcases List.mem_cons.1 hc with rfl | hcl
        · exact absurd rfl hac
        · exact hcl
      have hlpos : 0 < l.length := List.length_pos_of_mem hcl
      simp only [List.length_cons]
      rw [ih hln hcl]
      omega

/-- C9: the report satisfies the exact integer relations: the duplicate
instance count is the sum over groups of (size - 1), the after-dedup count
is the original count minus the instance count, and after-dedup plus removed
equals the original count. -/
theorem C9_report_arithmetic (qs : List QRec) (out : List QRec) (rpt : Report)
    (h : deduplicate_questions qs = Except.ok (out, rpt)) :
    rpt.total_original = qs.length ∧
    rpt.total_duplicate_instances =
      (rpt.duplicate_groups.map (fun a => a.duplicate_indices.length - 1)).sum ∧
    (rpt.total_after_deduplication : Int) =
      (rpt.total_original : Int) - (rpt.total_duplicate_instances : Int) ∧
    (rpt.total_after_deduplication : Int) + rpt.questions_removed =
      (rpt.total_original : Int) := by
  obtain ⟨processed, hproc, hgroups, hout, horig, hfound, hinst, hafter, hremoved⟩ :=
    deduplicate_ok_struct h
  have hf2 := dedup_forall2 h
  have hmapeq : (find_duplicates qs).map (fun g => g.2.length - 1) =
      rpt.duplicate_groups.map (fun a => a.duplicate_indices.length - 1) :=
    forall2_map_eq (fun g a hrel => by rw [hrel.1]) hf2
  have hinst' : rpt.total_duplicate_instances =
      (rpt.duplicate_groups.map (fun a => a.duplicate_indices.length - 1)).sum := by
    rw [hinst, hmapeq]
  have hrlen : (removedOf rpt).length =
      (rpt.duplicate_groups.map (fun a => a.duplicate_indices.length - 1)).sum := by
    unfold removedOf
    rw [List.length_flatMap]
    congr 1
    apply List.map_congr_left
    intro a ha
    rcases forall2_mem_right hf2 a ha with ⟨g, hg, h1, h2, h3, h4⟩
    have hnodup : a.duplicate_indices.Nodup := by
      rw [h1, h3]
      exact idxWith_nodup qs qs.length g.1
    have hcmem : a.canonical_index ∈ a.duplicate_indices := by
      rw [h1]
      exact h2
    show (a.duplicate_indices.filter (fun i => i ≠ a.canonical_index)).length =
      a.duplicate_indices.length - 1
    exact length_filter_ne hnodup hcmem
  have hperm := dedup_perm hf2
  have hlen := hperm.length_eq
  rw [List.length_append, List.length_append, List.length_range] at hlen
  have hclen : (canonsOf rpt).length = rpt.duplicate_groups.length := by
    unfold canonsOf
    rw [List.length_map]
  have houtlen : out.length =
      rpt.duplicate_groups.length + (keptOf qs rpt).length := by
    rw [dedup_out_structure h, List.length_append, List.length_map, List.length_map]
  refine ⟨horig, hinst', ?_, ?_⟩
  · rw [hafter, horig, hinst', ← hrlen, houtlen]
    rw [hclen] at hlen
    omega
  · rw [hafter, hremoved, horig]
    omega

/-- Witness for C9 at a concrete three-record corpus. -/
theorem C9_witness :
    deduplicate_questions c1qs = Except.ok (c1out, c1rpt) ∧
    (c1rpt.total_original = c1qs.length ∧
      c1rpt.total_duplicate_instances =
        (c1rpt.duplicate_groups.map
          (fun a => a.duplicate_indices.length - 1)).sum ∧
      (c1rpt.total_after_deduplication : Int) =
        (c1rpt.total_original : Int) - (c1rpt.total_duplicate_instances : Int) ∧
      (c1rpt.total_after_deduplication : Int) + c1rpt.questions_removed =
        (c1rpt.total_original : Int)) :=
  ⟨rfl, C9_report_arithmetic c1qs c1out c1rpt rfl⟩

instance (qs : List QRec) (i : Nat) : Decidable (isDupPos qs i) := by
  unfold isDupPos
  infer_instance

/-- C4: the output is two blocks: first one enhanced canonical record per
duplicate group, in the order the groups' texts were first encountered; then
every record belonging to no duplicate group, tagged
`metadata.is_deduplicated = false`, in ascending original-index order. -/
theorem C4_output_order (qs : List QRec) (out : List QRec) (rpt : Report)
    (h : deduplicate_questions qs = Except.ok (out, rpt)) :
    out = rpt.duplicate_groups.map (fun a =>
        enhanceQ (qs.getD a.canonical_index dfltQ) a.merged_sources) ++
      ((List.range qs.length).filter (fun i => ¬ isDupPos qs i)).map
        (fun i => tagNonDup (qs.getD i dfltQ)) ∧
    rpt.duplicate_groups.map (fun a => keyAt qs a.canonical_index) =
      (firstSeenKeys qs qs.length).filter
        (fun t => 1 < (idxWith qs qs.length t).length) ∧
    ∀ q ∈ ((List.range qs.length).filter (fun i => ¬ isDupPos qs i)).map
        (fun i => tagNonDup (qs.getD i dfltQ)),
      lookupMeta (q.metadata.getD []) "is_deduplicated" =
        some (MVal.bool false) := by
  have hf2 := dedup_forall2 h
  have hkept : keptOf qs rpt =
      (List.range qs.length).filter (fun i => ¬ isDupPos qs i) := by
    unfold keptOf
    apply List.filter_congr
    intro i hi
    have hiff := mem_removed_or_canons hf2 i (List.mem_range.1 hi)
    simp only [decide_eq_decide]
    exact not_congr hiff
  refine ⟨?_, ?_, ?_⟩
  · rw [dedup_out_structure h, hkept]
  · have hmap : rpt.duplicate_groups.map (fun a => keyAt qs a.canonical_index) =
        (find_duplicates qs).map (fun g => g.1) := by
      refine (forall2_map_eq ?_ hf2).symm
      rintro g a ⟨h1, h2, h3, h4⟩
      rw [h3] at h2
      exact (mem_idxWith.1 h2).2.symm
    rw [hmap]
    rw [show (fun (g : String × List Nat) => g.1) =
      (Prod.fst : String × List Nat → String) from rfl]
    exact fd_keys qs
  · intro q hq
    rcases List.mem_map.1 hq with ⟨i, _, hqi⟩
    rw [← hqi]
    unfold tagNonDup
    simp only [Option.getD_some]
    exact lookupMeta_dictSet_self _ _ _

/-- Witness for C4 at a concrete three-record corpus. -/
theorem C4_witness :
    deduplicate_questions c1qs = Except.ok (c1out, c1rpt) ∧
    (c1out = c1rpt.duplicate_groups.map (fun a =>
        enhanceQ (c1qs.getD a.canonical_index dfltQ) a.merged_sources) ++
      ((List.range c1qs.length).filter (fun i => ¬ isDupPos c1qs i)).map
        (fun i => tagNonDup (c1qs.getD i dfltQ)) ∧
    c1rpt.duplicate_groups.map (fun a => keyAt c1qs a.canonical_index) =
      (firstSeenKeys c1qs c1qs.length).filter
        (fun t => 1 < (idxWith c1qs c1qs.length t).length) ∧
    ∀ q ∈ ((List.range c1qs.length).filter (fun i => ¬ isDupPos c1qs i)).map
        (fun i => tagNonDup (c1qs.getD i dfltQ)),
      lookupMeta (q.metadata.getD []) "is_deduplicated" =
        some (MVal.bool false)) :=
  ⟨rfl, C4_output_order c1qs c1out c1rpt rfl⟩

/-- Does the record read as having `unit == "Unknown"` (absent defaults to
"Unknown", line 67)? -/
def unitUnknownB (q : QRec) : Bool := q.unit.getD "Unknown" == "Unknown"

/-- Python truthiness of `q.get("metadata")` (line 69): present and
non-empty. -/
def hasMetaB (q : QRec) : Bool :=
  match q.metadata with
  | none => false
  | some m => !m.isEmpty

/-- The spec-side priority order: `a` (at index `ia`, with parsed year `ya`)
outranks or ties `b`: known unit beats unknown; then smaller year; then
present non-empty metadata; then the lower original index. -/
def outranks (a b : QRec) (ia ib : Nat) (ya yb : Int) : Prop :=
  (unitUnknownB a = false ∧ unitUnknownB b = true) ∨
  (unitUnknownB a = unitUnknownB b ∧
    (ya < yb ∨ (ya = yb ∧
      ((hasMetaB a = true ∧ hasMetaB b = false) ∨
        (hasMetaB a = hasMetaB b ∧ ia ≤ ib)))))

theorem priority_key_val (q : QRec) {y : Int}
    (h : yearKey q.year = Except.ok y) :
    priority_key metaNonEmpty q =
      Except.ok (unitUnknownB q, y, -(if hasMetaB q then (1 : Int) else 0)) := by
  rw [priority_key_ok metaNonEmpty q h]
  cases hm : q.metadata with
  | none => simp [hasMetaB, unitUnknownB, hm]
  | some m => simp [hasMetaB, unitUnknownB, hm, metaNonEmpty]

/-- C2: for a duplicate group (candidate indices ascending, all in range,
all years computable) the selected canonical record outranks every candidate
under the composite priority: known unit first, then numerically smaller
year, then present non-empty metadata, then the lowest original index. -/
theorem C2_canonical_selection (qs : List QRec) (indices : List Nat)
    (hne : indices ≠ []) (hsort : indices.Pairwise (· < ·))
    (hok : ∀ i ∈ indices, ∃ q, qs.get? i = some q ∧ yearTotal q.year) :
    ∃ c cq yc, select_canonical_version metaNonEmpty qs indices =
        Except.ok (c, cq) ∧
      qs.get? c = some cq ∧ c ∈ indices ∧ yearKey cq.year = Except.ok yc ∧
      ∀ i qi yi, i ∈ indices → qs.get? i = some qi →
        yearKey qi.year = Except.ok yi → outranks cq qi c i yc yi := by
  have hok' : ∀ i ∈ indices, ∃ q k, qs.get? i = some q ∧
      priority_key metaNonEmpty q = Except.ok k := by
    intro i hi
    rcases hok i hi with ⟨q, hq, n, hy⟩
    exact ⟨q, _, hq, priority_key_val q hy⟩
  obtain ⟨c, cq, ck, hsel, hget, hmem, hpk, hmin⟩ :=
    select_ok_spec metaNonEmpty qs indices hne hsort hok'
  rcases hok c hmem with ⟨q', hq', n', hy'⟩
  have hqq : q' = cq := by
    rw [hget] at hq'
    exact (Option.some.inj hq').symm
  have hycq : yearKey cq.year = Except.ok n' := hqq ▸ hy'
  have hckval : ck = (unitUnknownB cq, n', -(if hasMetaB cq then (1 : Int) else 0)) := by
    have hv := priority_key_val cq hycq
    rw [hpk] at hv
    exact Except.ok.inj hv
  refine ⟨c, cq, n', hsel, hget, hmem, hycq, ?_⟩
  intro i qi yi hi hqi hyi
  have hki := priority_key_val qi hyi
  have hres := hmin i qi _ hi hqi hki
  unfold outranks
  rcases hres with hlt | ⟨heq, hle⟩
  · rw [hckval] at hlt
    rw [pkLt_iff] at hlt
    simp only [] at hlt
    rcases hlt with ⟨hu1, hu2⟩ | ⟨hu, hrest⟩
    · exact Or.inl ⟨hu1, hu2⟩
    · refine Or.inr ⟨hu, ?_⟩
      rcases hrest with hy | ⟨hyeq, hmlt⟩
      · exact Or.inl hy
      · refine Or.inr ⟨hyeq, ?_⟩
        by_cases h1 : hasMetaB cq <;> by_cases h2 : hasMetaB qi <;>
          simp [h1, h2] at hmlt ⊢
  · rw [hckval] at heq
    have h1 : unitUnknownB cq = unitUnknownB qi := congrArg Prod.fst heq
    have h2 : n' = yi := congrArg (fun p => p.2.1) heq
    have h3 : (-(if hasMetaB cq then (1 : Int) else 0)) =
        (-(if hasMetaB qi then (1 : Int) else 0)) := congrArg (fun p => p.2.2) heq
    have h4 : hasMetaB cq = hasMetaB qi := by
      by_cases ha : hasMetaB cq <;> by_cases hb : hasMetaB qi <;>
        simp [ha, hb] at h3 ⊢
    exact Or.inr ⟨h1, Or.inr ⟨h2, Or.inr ⟨h4, hle⟩⟩⟩

def c2qs : List QRec :=
  [RecG.mk (some "x") (some "Unknown") (some "2020") none none none none [],
   RecG.mk (some "x") (some "BBIT106") (some "2021") none none none none []]

/-- Witness for C2: the spec example — a group
`[{unit: Unknown, year: 2020}, {unit: BBIT106, year: 2021}]` selects
index 1 (known unit outranks the earlier year). -/
theorem C2_witness :
    (([0, 1] : List Nat) ≠ [] ∧
      ([0, 1] : List Nat).Pairwise (· < ·) ∧
      (∀ i ∈ ([0, 1] : List Nat), ∃ q, c2qs.get? i = some q ∧
        yearTotal q.year)) ∧
    select_canonical_version metaNonEmpty c2qs [0, 1] =
      Except.ok (1, RecG.mk (some "x") (some "BBIT106") (some "2021")
        none none none none []) ∧
    (∃ c cq yc, select_canonical_version metaNonEmpty c2qs [0, 1] =
        Except.ok (c, cq) ∧
      c2qs.get? c = some cq ∧ c ∈ ([0, 1] : List Nat) ∧
      yearKey cq.year = Except.ok yc ∧
      ∀ i qi yi, i ∈ ([0, 1] : List Nat) → c2qs.get? i = some qi →
        yearKey qi.year = Except.ok yi → outranks cq qi c i yc yi) := by
  have hhyp : ∀ i ∈ ([0, 1] : List Nat), ∃ q, c2qs.get? i = some q ∧
      yearTotal q.year := by
    intro i hi
    rcases List.mem_cons.1 hi with rfl | hi'
    · exact ⟨_, rfl, 2020, by decide⟩
    · rcases List.mem_cons.1 hi' with rfl | hi''
      · exact ⟨_, rfl, 2021, by decide⟩
      · simp at hi''
  refine ⟨⟨by decide, by decide, hhyp⟩, rfl, ?_⟩
  exact C2_canonical_selection c2qs [0, 1] (by decide) (by decide) hhyp

/-- Success of `select_canonical_version` whenever every candidate is in
range and has a computable priority key (no ordering assumption needed). -/
theorem select_total {μ : Type} (mt : μ → Bool) (qs : List (RecG μ))
    (indices : List Nat) (hne : indices ≠ [])
    (hok : ∀ i ∈ indices, ∃ q k, qs.get? i = some q ∧
      priority_key mt q = Except.ok k) :
    ∃ c cq, select_canonical_version mt qs indices = Except.ok (c, cq) := by
  have htotal1 : ∀ i ∈ indices, ∃ c, (do
      let q ← pyGet qs i
      Except.ok (i, q) : Except PyErr (Nat × RecG μ)) = Except.ok c := by
    intro i hi
    rcases hok i hi with ⟨q, k, hq, _⟩
    refine ⟨(i, q), ?_⟩
    rw [show pyGet qs i = Except.ok q from by unfold pyGet; rw [hq], ok_bind]
  obtain ⟨cands, hcands⟩ := exMap_total htotal1
  have hf2c := exMap_ok_forall2 hcands
  have htotal2 : ∀ c ∈ cands, ∃ kc, (do
      let k ← priority_key mt c.2
      Except.ok (k, c) : Except PyErr (PKey × Nat × RecG μ)) = Except.ok kc := by
    intro c hc
    rcases forall2_mem_right hf2c c hc with ⟨i, hi, hrel⟩
    rcases candF_ok hrel with ⟨_, hgc⟩
    rcases hok i hi with ⟨q, k, hq, hk⟩
    have hqc : q = c.2 := by
      rw [hq] at hgc
      exact Option.some.inj hgc
    refine ⟨(k, c), ?_⟩
    rw [show priority_key mt c.2 = Except.ok k from by rw [← hqc]; exact hk, ok_bind]
  obtain ⟨keyed, hkeyed⟩ := exMap_total htotal2
  have hf2k := exMap_ok_forall2 hkeyed
  cases keyed with
  | nil =>
    exfalso
    have h1 := hf2c.length_eq
    have h2 := hf2k.length_eq
    simp at h2
    rw [h2] at h1
    simp at h1
    exact hne h1
  | cons x xs =>
    refine ⟨(xs.foldl (fun best y => if pkLt y.1 best.1 then y else best) x).2.1,
      (xs.foldl (fun best y => if pkLt y.1 best.1 then y else best) x).2.2, ?_⟩
    unfold select_canonical_version
    rw [hcands, ok_bind, hkeyed, ok_bind, Prod.mk.eta]

def c3qs : List QRec :=
  [RecG.mk (some "y") none (some "N/A") none none none none [],
   RecG.mk (some "y") none (some "2020") none none none none []]

/-- Counterexample for C3: the group contains a record with the non-numeric
year "N/A"; `select_canonical_version` raises the `ValueError` of `int()`
rather than completing with the 9999 sentinel. -/
theorem C3_counterexample :
    select_canonical_version metaNonEmpty c3qs [0, 1] =
      Except.error PyErr.valueErr ∧
    (c3qs.getD 0 dfltQ).year = some "N/A" := by
  exact ⟨by decide, rfl⟩

/-- C3 (amended): the canonical-selection comparison is total on groups all
of whose present years are empty or numeric — it completes, treating absent
and empty years as the maximum sentinel 9999.  A present non-numeric year
instead raises the ValueError of `int()`. -/
theorem C3_year_totality :
    (∀ (qs : List QRec) (indices : List Nat), indices ≠ [] →
      (∀ i ∈ indices, ∃ q, qs.get? i = some q ∧ yearTotal q.year) →
      ∃ c cq, select_canonical_version metaNonEmpty qs indices =
        Except.ok (c, cq)) ∧
    yearKey none = Except.ok 9999 ∧
    yearKey (some "") = Except.ok 9999 ∧
    (∀ s, s ≠ "" → pyInt s = none →
      yearKey (some s) = Except.error PyErr.valueErr) := by
  refine ⟨?_, rfl, rfl, ?_⟩
  · intro qs indices hne hok
    refine select_total metaNonEmpty qs indices hne ?_
    intro i hi
    rcases hok i hi with ⟨q, hq, n, hy⟩
    exact ⟨q, _, hq, priority_key_val q hy⟩
  · intro s hs hp
    show (if s = "" then Except.ok 9999
      else match pyInt s with
        | some n => Except.ok n
        | none => Except.error PyErr.valueErr) = Except.error PyErr.valueErr
    rw [if_neg hs, hp]

def c3okqs : List QRec :=
  [mkq "z", RecG.mk (some "z") none (some "2019") none none none none []]

/-- Witness for the amended C3 at a group with an absent year and a numeric
year. -/
theorem C3_witness :
    (([0, 1] : List Nat) ≠ [] ∧
      (∀ i ∈ ([0, 1] : List Nat), ∃ q, c3okqs.get? i = some q ∧
        yearTotal q.year)) ∧
    (∃ c cq, select_canonical_version metaNonEmpty c3okqs [0, 1] =
      Except.ok (c, cq)) := by
  have hok : ∀ i ∈ ([0, 1] : List Nat), ∃ q, c3okqs.get? i = some q ∧
      yearTotal q.year := by
    intro i hi
    rcases List.mem_cons.1 hi with rfl | hi'
    · exact ⟨_, rfl, 9999, rfl⟩
    · rcases List.mem_cons.1 hi' with rfl | hi''
      · exact ⟨_, rfl, 2019, by decide⟩
      · simp at hi''
  exact ⟨⟨by decide, hok⟩, C3_year_totality.1 c3okqs [0, 1] (by decide) hok⟩

theorem select_singleton (qs : List QRec) (i : Nat) (q : QRec)
    (hq : qs.get? i = some q) {k : PKey}
    (hk : priority_key metaNonEmpty q = Except.ok k) :
    select_canonical_version metaNonEmpty qs [i] = Except.ok (i, q) := by
  unfold select_canonical_version
  have hpy : pyGet qs i = Except.ok q := by unfold pyGet; rw [hq]
  have hc : exMap (fun j => (do
      let r ← pyGet qs j
      Except.ok (j, r) : Except PyErr (Nat × QRec))) [i] = Except.ok [(i, q)] := by
    unfold exMap
    rw [show (do
      let r ← pyGet qs i
      Except.ok (i, r) : Except PyErr (Nat × QRec)) = Except.ok (i, q) from by
        rw [hpy, ok_bind], ok_bind]
    rfl
  rw [hc, ok_bind]
  have hkd : exMap (fun c => (do
      let k' ← priority_key metaNonEmpty c.2
      Except.ok (k', c) : Except PyErr (PKey × Nat × QRec))) [(i, q)] =
      Except.ok [(k, (i, q))] := by
    unfold exMap
    rw [show (do
      let k' ← priority_key metaNonEmpty ((i, q) : Nat × QRec).2
      Except.ok (k', ((i, q) : Nat × QRec)) :
        Except PyErr (PKey × Nat × QRec)) = Except.ok (k, (i, q)) from by
        rw [show priority_key metaNonEmpty ((i, q) : Nat × QRec).2 =
          Except.ok k from hk, ok_bind], ok_bind]
    rfl
  rw [hkd, ok_bind]
  rfl

def c8qs : List QRec := [mkq "w"]

/-- Counterexample for C8: invoked on a singleton group,
`select_canonical_version` returns a normal result (and `merge_sources`
returns a normal result even on an empty list) instead of signalling a
dedicated InvalidGroup error. -/
theorem C8_counterexample :
    select_canonical_version metaNonEmpty c8qs [0] = Except.ok (0, mkq "w") ∧
    merge_sources c8qs ([] : List Nat) =
      Except.ok (MergedSources.mk [] [] [] 0) := by
  exact ⟨by decide, rfl⟩

/-- C8 (amended): neither function checks the group size.  On a singleton
list both return normal results (selection returns that very record; the
merge counts one source); on an empty list `merge_sources` still returns a
normal empty merge, while `select_canonical_version` fails only with the
generic ValueError of `min` on an empty sequence — there is no dedicated
InvalidGroup error. -/
theorem C8_no_invalid_group :
    (∀ (qs : List QRec) (i : Nat) (q : QRec), qs.get? i = some q →
      yearTotal q.year →
      select_canonical_version metaNonEmpty qs [i] = Except.ok (i, q)) ∧
    (∀ qs : List QRec, select_canonical_version metaNonEmpty qs [] =
      Except.error PyErr.emptySeq) ∧
    (∀ (qs : List QRec) (indices : List Nat),
      (∀ i ∈ indices, ∃ q, qs.get? i = some q) →
      ∃ ms, merge_sources qs indices = Except.ok ms ∧
        ms.duplicate_count = indices.length) := by
  refine ⟨?_, ?_, ?_⟩
  · intro qs i q hq ht
    rcases ht with ⟨n, hy⟩
    exact select_singleton qs i q hq (priority_key_val q hy)
  · intro qs
    rfl
  · intro qs indices hval
    obtain ⟨ms, hms, hcount, -⟩ := merge_sources_spec qs indices hval
    exact ⟨ms, hms, hcount⟩

/-- Witness for the amended C8. -/
theorem C8_witness :
    (c8qs.get? 0 = some (mkq "w") ∧ yearTotal (mkq "w").year ∧
      (∀ i ∈ ([0] : List Nat), ∃ q, c8qs.get? i = some q)) ∧
    select_canonical_version metaNonEmpty c8qs [0] = Except.ok (0, mkq "w") ∧
    select_canonical_version metaNonEmpty ([] : List QRec) [] =
      Except.error PyErr.emptySeq ∧
    (∃ ms, merge_sources c8qs [0] = Except.ok ms ∧
      ms.duplicate_count = ([0] : List Nat).length) := by
  have hval : ∀ i ∈ ([0] : List Nat), ∃ q, c8qs.get? i = some q := by
    intro i hi
    rcases List.mem_cons.1 hi with rfl | hi'
    · exact ⟨mkq "w", rfl⟩
    · simp at hi'
  refine ⟨⟨rfl, ⟨9999, rfl⟩, hval⟩, ?_, ?_, ?_⟩
  · exact C8_no_invalid_group.1 c8qs 0 (mkq "w") rfl ⟨9999, rfl⟩
  · exact C8_no_invalid_group.2.1 []
  · exact C8_no_invalid_group.2.2 c8qs [0] hval

def c6qs : List QRec :=
  [RecG.mk (some "q") none (some "") (some "") none none none [],
   RecG.mk (some "q") none (some "2020") (some "a.pdf") none none none []]

/-- Counterexample for C6: record 0 carries the non-absent (but empty) year
`""` and source file `""`, yet neither value appears in the collapsed sets —
the Python truthiness test on lines 98-101 drops present-but-empty values,
so the sets are not the sets of all non-absent values. -/
theorem C6_counterexample :
    merge_sources c6qs [0, 1] = Except.ok (MergedSources.mk
      ["a.pdf"] ["2020"]
      [SourceEntry.mk (some "") (some "") none 0,
       SourceEntry.mk (some "2020") (some "a.pdf") none 1] 2) ∧
    (c6qs.getD 0 dfltQ).year = some "" ∧
    (c6qs.getD 0 dfltQ).source_file = some "" ∧
    "" ∉ (["2020"] : List String) ∧ "" ∉ (["a.pdf"] : List String) := by
  exact ⟨by decide, rfl, rfl, by decide, by decide⟩

/-- C6 (amended): for in-range indices, `merge_sources` returns a structure
whose `all_sources` has exactly one entry per index in input order with the
record's year, source file, question number and original index (absent
propagated as absent), whose `duplicate_count` is the number of indices, and
whose `source_pdfs` and `years_found` are the lexicographically sorted,
duplicate-collapsed sets of the present AND non-empty source files and
years (a present empty string is dropped by the truthiness test). -/
theorem C6_merge_sources (qs : List QRec) (indices : List Nat)
    (hval : ∀ i ∈ indices, ∃ q, qs.get? i = some q) :
    ∃ ms, merge_sources qs indices = Except.ok ms ∧
      ms.duplicate_count = indices.length ∧
      List.Forall₂ (fun i e => ∃ q, qs.get? i = some q ∧
        e = SourceEntry.mk q.year q.source_file q.question_number i)
        indices ms.all_sources ∧
      ms.years_found.Sorted (fun a b => a ≤ b) ∧ ms.years_found.Nodup ∧
      (∀ y, y ∈ ms.years_found ↔
        (y ≠ "" ∧ ∃ i ∈ indices, ∃ q, qs.get? i = some q ∧
          q.year = some y)) ∧
      ms.source_pdfs.Sorted (fun a b => a ≤ b) ∧ ms.source_pdfs.Nodup ∧
      (∀ s, s ∈ ms.source_pdfs ↔
        (s ≠ "" ∧ ∃ i ∈ indices, ∃ q, qs.get? i = some q ∧
          q.source_file = some s)) :=
  merge_sources_spec qs indices hval

/-- Witness for the amended C6 at a group with a collapsing source file. -/
def c6wqs : List QRec :=
  [RecG.mk (some "p") none (some "2020") (some "paper_a.pdf") none none none [],
   RecG.mk (some "p") none (some "2021") (some "paper_a.pdf") none none none [],
   RecG.mk (some "p") none none (some "paper_b.pdf") none none none []]

theorem C6_witness :
    (∀ i ∈ ([0, 1, 2] : List Nat), ∃ q, c6wqs.get? i = some q) ∧
    (∃ ms, merge_sources c6wqs [0, 1, 2] = Except.ok ms ∧
      ms.duplicate_count = ([0, 1, 2] : List Nat).length ∧
      List.Forall₂ (fun i e => ∃ q, c6wqs.get? i = some q ∧
        e = SourceEntry.mk q.year q.source_file q.question_number i)
        [0, 1, 2] ms.all_sources ∧
      ms.years_found.Sorted (fun a b => a ≤ b) ∧ ms.years_found.Nodup ∧
      (∀ y, y ∈ ms.years_found ↔
        (y ≠ "" ∧ ∃ i ∈ ([0, 1, 2] : List Nat), ∃ q, c6wqs.get? i = some q ∧
          q.year = some y)) ∧
      ms.source_pdfs.Sorted (fun a b => a ≤ b) ∧ ms.source_pdfs.Nodup ∧
      (∀ s, s ∈ ms.source_pdfs ↔
        (s ≠ "" ∧ ∃ i ∈ ([0, 1, 2] : List Nat), ∃ q, c6wqs.get? i = some q ∧
          q.source_file = some s))) := by
  have hval : ∀ i ∈ ([0, 1, 2] : List Nat), ∃ q, c6wqs.get? i = some q := by
    intro i hi
    rcases List.mem_cons.1 hi with rfl | hi'
    · exact ⟨_, rfl⟩
    · rcases List.mem_cons.1 hi' with rfl | hi''
      · exact ⟨_, rfl⟩
      · rcases List.mem_cons.1 hi'' with rfl | hi3
        · exact ⟨_, rfl⟩
        · simp at hi3
  exact ⟨hval, C6_merge_sources c6wqs [0, 1, 2] hval⟩

/-- A record whose question is absent, empty, or whitespace-only. -/
def blankQ (q : QRec) : Prop :=
  match q.question with
  | none => True
  | some s => s.toList.all pyWs = true

theorem forall2_countP {α β : Type} {rel : α → β → Prop} {p : α → Bool}
    {q : β → Bool} (hpq : ∀ a b, rel a b → p a = q b) :
    ∀ {l : List α} {l' : List β}, List.Forall₂ rel l l' →
      l.countP p = l'.countP q := by
  intro l l' h
  induction h with
  | nil => rfl
  | cons ha _ ih =>
    rw [List.countP_cons, List.countP_cons, ih, hpq _ _ ha]

theorem blank_dedupKey {q : QRec} (h : blankQ q) : dedupKey q = "" := by
  unfold dedupKey
  unfold blankQ at h
  cases hq : q.question with
  | none => rfl
  | some s =>
    rw [hq] at h
    exact pyStrip_all_ws s h

theorem one_lt_length_of_two_mem {l : List Nat} {i j : Nat}
    (hij : i ≠ j) (hi : i ∈ l) (hj : j ∈ l) : 1 < l.length := by
  cases l with
  | nil => simp at hi
  | cons a l' =>
    cases l' with
    | nil =>
      rcases List.mem_singleton.1 hi with rfl
      rcases List.mem_singleton.1 hj with rfl
      exact absurd rfl hij
    | cons b l'' => simp [List.length_cons]

theorem countP_eq_one_of_nodup {l : List String} (hn : l.Nodup) {t : String}
    (ht : t ∈ l) : l.countP (fun x => x = t) = 1 := by
  induction l with
  | nil => simp at ht
  | cons a l ih =>
    rcases List.nodup_cons.1 hn with ⟨hal, hln⟩
    rw [List.countP_cons]
    by_cases hat : a = t
    · have hz : l.countP (fun x => x = t) = 0 := by
        rw [List.countP_eq_zero]
        intro x hx
        simp only [decide_eq_true_eq]
        intro hxt
        rw [hxt, ← hat] at hx
        exact hal hx
      rw [hz]
      simp [hat]
    · have htl : t ∈ l := by
        rcases List.mem_cons.1 ht with rfl | htl
        · exact absurd rfl hat
        · exact htl
      rw [ih hln htl]
      simp [hat]

/-- C10: records whose question is absent, empty, or whitespace-only all map
to the empty deduplication key; whenever two such records occur,
`find_duplicates` groups them together and a successful run emits exactly
one record originating from that blank group. -/
theorem C10_blank_collapse (qs : List QRec) (i j : Nat) (qi qj : QRec)
    (hij : i ≠ j) (hqi : qs.get? i = some qi) (hqj : qs.get? j = some qj)
    (hbi : blankQ qi) (hbj : blankQ qj) :
    dedupKey qi = "" ∧ dedupKey qj = "" ∧
    ("", idxWith qs qs.length "") ∈ find_duplicates qs ∧
    i ∈ idxWith qs qs.length "" ∧ j ∈ idxWith qs qs.length "" ∧
    ∀ out rpt, deduplicate_questions qs = Except.ok (out, rpt) →
      (canonsOf rpt ++ keptOf qs rpt).countP
        (fun x => keyAt qs x = "") = 1 := by
  have hilt : i < qs.length := by
    rcases List.get?_eq_some.1 hqi with ⟨h, _⟩
    exact h
  have hjlt : j < qs.length := by
    rcases List.get?_eq_some.1 hqj with ⟨h, _⟩
    exact h
  have hki : keyAt qs i = "" := by
    unfold keyAt
    rw [hqi]
    exact blank_dedupKey hbi
  have hkj : keyAt qs j = "" := by
    unfold keyAt
    rw [hqj]
    exact blank_dedupKey hbj
  have hiw : i ∈ idxWith qs qs.length "" := mem_idxWith.2 ⟨hilt, hki⟩
  have hjw : j ∈ idxWith qs qs.length "" := mem_idxWith.2 ⟨hjlt, hkj⟩
  have hlen : 1 < (idxWith qs qs.length "").length :=
    one_lt_length_of_two_mem hij hiw hjw
  refine ⟨blank_dedupKey hbi, blank_dedupKey hbj, fd_mem hlen, hiw, hjw, ?_⟩
  intro out rpt h
  have hf2 := dedup_forall2 h
  rw [List.countP_append]
  have hc1 : (canonsOf rpt).countP (fun x => keyAt qs x = "") = 1 := by
    have e1 : (canonsOf rpt).countP (fun x => keyAt qs x = "") =
        rpt.duplicate_groups.countP
          (fun a => keyAt qs a.canonical_index = "") := by
      unfold canonsOf
      rw [List.countP_map]
      rfl
    have e2 : rpt.duplicate_groups.countP
        (fun a => keyAt qs a.canonical_index = "") =
        (find_duplicates qs).countP (fun g => g.1 = "") := by
      refine (forall2_countP ?_ hf2).symm
      rintro g a ⟨h1, h2, h3, h4⟩
      rw [h3] at h2
      rw [(mem_idxWith.1 h2).2]
    have e3 : (find_duplicates qs).countP (fun g => g.1 = "") =
        ((find_duplicates qs).map Prod.fst).countP (fun t => t = "") := by
      rw [List.countP_map]
      rfl
    rw [e1, e2, e3]
    apply countP_eq_one_of_nodup (fd_keys_nodup qs)
    exact List.mem_map.2 ⟨("", idxWith qs qs.length ""), fd_mem hlen, rfl⟩
  have hc2 : (keptOf qs rpt).countP (fun x => keyAt qs x = "") = 0 := by
    rw [List.countP_eq_zero]
    intro x hx
    rcases List.mem_filter.1 hx with ⟨hxr, hxp⟩
    have hxlt : x < qs.length := List.mem_range.1 hxr
    have hxnot : ¬(x ∈ removedOf rpt ∨ x ∈ canonsOf rpt) := by simpa using hxp
    simp only [decide_eq_true_eq]
    intro hxkey
    apply hxnot
    rw [mem_removed_or_canons hf2 x hxlt]
    unfold isDupPos
    rw [hxkey]
    exact hlen
  rw [hc1, hc2]

def c10r0 : QRec := RecG.mk none none none none none none none []

def c10qs : List QRec := [c10r0, mkq "  ", mkq "b"]

/-- Witness for C10: a record with no question and a record with a
whitespace-only question collapse into one group. -/
theorem C10_witness :
    ((0 : Nat) ≠ 1 ∧ c10qs.get? 0 = some c10r0 ∧
      c10qs.get? 1 = some (mkq "  ") ∧ blankQ c10r0 ∧ blankQ (mkq "  ")) ∧
    (dedupKey c10r0 = "" ∧ dedupKey (mkq "  ") = "" ∧
      ("", idxWith c10qs c10qs.length "") ∈ find_duplicates c10qs ∧
      0 ∈ idxWith c10qs c10qs.length "" ∧ 1 ∈ idxWith c10qs c10qs.length "" ∧
      ∀ out rpt, deduplicate_questions c10qs = Except.ok (out, rpt) →
        (canonsOf rpt ++ keptOf c10qs rpt).countP
          (fun x => keyAt c10qs x = "") = 1) := by
  have hb0 : blankQ c10r0 := trivial
  have hb1 : blankQ (mkq "  ") := by
    show ("  ".toList.all pyWs) = true
    decide
  exact ⟨⟨by decide, rfl, rfl, hb0, hb1⟩,
    C10_blank_collapse c10qs 0 1 c10r0 (mkq "  ") (by decide) rfl rfl hb0 hb1⟩

/-! ### C5: behaviour of a second run -/

theorem two_mem_of_one_lt_length {l : List Nat} (h : 1 < l.length)
    (hn : l.Nodup) : ∃ a b, a ∈ l ∧ b ∈ l ∧ a ≠ b := by
  cases l with
  | nil => simp at h
  | cons a l' =>
    cases l' with
    | nil => simp at h
    | cons b l'' =>
      refine ⟨a, b, List.mem_cons_self _ _,
        List.mem_cons_of_mem a (List.mem_cons_self _ _), ?_⟩
      rcases List.nodup_cons.1 hn with ⟨hab, _⟩
      intro hc
      exact hab (hc ▸ List.mem_cons_self b l'')

theorem distinct_keys_no_duplicates (qs : List QRec)
    (hdist : ∀ i ∈ List.range qs.length, ∀ j ∈ List.range qs.length,
      i ≠ j → keyAt qs i ≠ keyAt qs j) :
    find_duplicates qs = [] := by
  unfold find_duplicates
  rw [List.filter_eq_nil_iff]
  intro p hp
  have hgrp := question_texts_grp (t := p.1) (l := p.2) (by rwa [Prod.mk.eta])
  simp only [decide_eq_true_eq, not_lt]
  by_contra hc
  push_neg at hc
  have hnodup : p.2.Nodup := by
    rw [hgrp]
    exact idxWith_nodup qs qs.length p.1
  rcases two_mem_of_one_lt_length hc hnodup with ⟨a, b, ha, hb, hab⟩
  rw [hgrp] at ha hb
  rcases mem_idxWith.1 ha with ⟨halt, hak⟩
  rcases mem_idxWith.1 hb with ⟨hblt, hbk⟩
  exact hdist a (List.mem_range.2 halt) b (List.mem_range.2 hblt) hab
    (by rw [hak, hbk])

/-- C5 (amended): on a corpus whose trimmed question texts are pairwise
distinct (as the output of a first run is), a second run succeeds with zero
duplicate groups, and returns the corpus with every record's
`metadata.is_deduplicated` overwritten to `false` — not the corpus
unchanged: a canonical record from the first run has its `true` flag
flipped. -/
theorem C5_second_run (qs : List QRec)
    (hdist : ∀ i ∈ List.range qs.length, ∀ j ∈ List.range qs.length,
      i ≠ j → keyAt qs i ≠ keyAt qs j) :
    deduplicate_questions qs =
      Except.ok (qs.map tagNonDup,
        Report.mk qs.length 0 0 [] qs.length 0) := by
  have hfd := distinct_keys_no_duplicates qs hdist
  unfold deduplicate_questions
  rw [hfd]
  rw [show exMap (processGroup qs) ([] : List (String × List Nat)) =
    Except.ok [] from rfl, ok_bind]
  show Except.ok
      (qs.enum.filterMap (fun p =>
        if p.1 ∈ ([] : List Nat) ∨ p.1 ∈ ([] : List Nat) then none
        else some (tagNonDup p.2)),
      { total_original := qs.length
        total_duplicates_found := 0
        total_duplicate_instances := 0
        duplicate_groups := []
        total_after_deduplication := (qs.enum.filterMap (fun p =>
          if p.1 ∈ ([] : List Nat) ∨ p.1 ∈ ([] : List Nat) then none
          else some (tagNonDup p.2))).length
        questions_removed := (qs.length : Int) - ((qs.enum.filterMap (fun p =>
          if p.1 ∈ ([] : List Nat) ∨ p.1 ∈ ([] : List Nat) then none
          else some (tagNonDup p.2))).length : Int) }) =
    Except.ok (qs.map tagNonDup, Report.mk qs.length 0 0 [] qs.length 0)
  have hfun : (fun (p : Nat × QRec) =>
      if p.1 ∈ ([] : List Nat) ∨ p.1 ∈ ([] : List Nat) then none
      else some (tagNonDup p.2)) = fun p => some (tagNonDup p.2) := by
    funext p
    rw [if_neg (by simp)]
  rw [hfun]
  have hmap : qs.enum.filterMap
      (fun (p : Nat × QRec) => some (tagNonDup p.2)) = qs.map tagNonDup := by
    rw [show (fun (p : Nat × QRec) => some (tagNonDup p.2)) =
      (some ∘ fun (p : Nat × QRec) => tagNonDup p.2) from rfl,
      List.filterMap_eq_map]
    rw [show (fun (p : Nat × QRec) => tagNonDup p.2) =
      (tagNonDup ∘ Prod.snd) from rfl, ← List.map_map, List.enum_map_snd]
  rw [hmap, List.length_map, sub_self]

def c5in : List QRec := [mkq "d", mkq "d"]

def c5mid : List QRec :=
  match deduplicate_questions c5in with
  | Except.ok p => p.1
  | Except.error _ => []

def c5midrpt : Report :=
  match deduplicate_questions c5in with
  | Except.ok p => p.2
  | Except.error _ => Report.mk 0 0 0 [] 0 0

def c5fin : List QRec :=
  match deduplicate_questions c5mid with
  | Except.ok p => p.1
  | Except.error _ => []

def c5finrpt : Report :=
  match deduplicate_questions c5mid with
  | Except.ok p => p.2
  | Except.error _ => Report.mk 0 0 0 [] 0 0

/-- Counterexample for C5: running the engine a second time on the
deduplicated output of a first run (which has no duplicate texts) reports
zero duplicate groups but does NOT return the corpus unchanged: the
canonical record's `metadata.is_deduplicated` flag is overwritten from
`true` to `false`. -/
theorem C5_counterexample :
    deduplicate_questions c5in = Except.ok (c5mid, c5midrpt) ∧
    deduplicate_questions c5mid = Except.ok (c5fin, c5finrpt) ∧
    c5finrpt.total_duplicates_found = 0 ∧
    c5fin ≠ c5mid := by
  refine ⟨rfl, rfl, rfl, by decide⟩

def c5wqs : List QRec := [mkq "a", mkq "b"]

/-- Witness for the amended C5 at a two-record duplicate-free corpus. -/
theorem C5_witness :
    (∀ i ∈ List.range c5wqs.length, ∀ j ∈ List.range c5wqs.length,
      i ≠ j → keyAt c5wqs i ≠ keyAt c5wqs j) ∧
    deduplicate_questions c5wqs =
      Except.ok (c5wqs.map tagNonDup,
        Report.mk c5wqs.length 0 0 [] c5wqs.length 0) :=
  ⟨by decide, C5_second_run c5wqs (by decide)⟩

/-! ### C7: mutation through shared metadata mappings -/

/-- The metadata keys the engine writes (lines 151-154 and 178). -/
def EngineKeys : List String :=
  ["source_pdfs", "years_found", "is_deduplicated", "duplicate_count"]

/-- Store preservation outside the engine keys: every address's mapping
keeps the same value at every non-engine key. -/
def StPres (st st2 : Store) : Prop :=
  ∀ a k, k ∉ EngineKeys →
    lookupMeta (st2.getD a []) k = lookupMeta (st.getD a []) k

theorem StPres_refl (st : Store) : StPres st st := fun _ _ _ => rfl

theorem StPres_trans {s1 s2 s3 : Store} (h1 : StPres s1 s2)
    (h2 : StPres s2 s3) : StPres s1 s3 :=
  fun a k hk => (h2 a k hk).trans (h1 a k hk)

theorem get?_set_self : ∀ (l : Store) (n : Nat) (x : Meta), n < l.length →
    (l.set n x).get? n = some x := by
  intro l
  induction l with
  | nil => intro n x h; simp at h
  | cons a l ih =>
    intro n x h
    cases n with
    | zero => rfl
    | succ m =>
      show (l.set m x).get? m = some x
      exact ih m x (by simpa using h)

theorem get?_set_other : ∀ (l : Store) (n m : Nat) (x : Meta), n ≠ m →
    (l.set n x).get? m = l.get? m := by
  intro l
  induction l with
  | nil => intro n m x _; cases n <;> rfl
  | cons a l ih =>
    intro n m x hnm
    cases n with
    | zero =>
      cases m with
      | zero => exact absurd rfl hnm
      | succ k => rfl
    | succ j =>
      cases m with
      | zero => rfl
      | succ k =>
        show (l.set j x).get? k = l.get? k
        exact ih j k x (fun hc => hnm (by rw [hc]))

theorem set_of_ge : ∀ (l : Store) (n : Nat) (x : Meta), l.length ≤ n →
    l.set n x = l := by
  intro l
  induction l with
  | nil => intro n x _; cases n <;> rfl
  | cons a l ih =>
    intro n x h
    cases n with
    | zero => simp at h
    | succ m =>
      show a :: l.set m x = a :: l
      rw [ih m x (by simpa using h)]

theorem StPres_dictSetStore (st : Store) (a : Nat) (k : String) (v : MVal)
    (hk : k ∈ EngineKeys) : StPres st (dictSetStore st a k v) := by
  intro b k' hk'
  have hkk : k' ≠ k := fun hc => hk' (hc ▸ hk)
  unfold dictSetStore
  by_cases hab : b = a
  · subst hab
    by_cases hlt : b < st.length
    · unfold List.getD
      rw [get?_set_self st b _ hlt]
      show lookupMeta (dictSet (storeGet st b) k v) k' =
        lookupMeta ((st.get? b).getD []) k'
      rw [lookupMeta_dictSet_ne _ _ _ _ hkk]
      rfl
    · rw [set_of_ge st b _ (le_of_not_lt hlt)]
  · unfold List.getD
    rw [get?_set_other st a b _ (fun hc => hab hc.symm)]

theorem StPres_alloc (st : Store) : StPres st (st ++ [[]]) := by
  intro b k _
  by_cases hlt : b < st.length
  · unfold List.getD
    rw [List.get?_append hlt]
  · have h1 : st.get? b = none := List.get?_eq_none.2 (le_of_not_lt hlt)
    unfold List.getD
    rw [h1]
    rw [List.get?_append_right (le_of_not_lt hlt)]
    cases hd : b - st.length with
    | zero => rfl
    | succ n => rfl

theorem StPres_enhanceH (st : Store) (cq : HRec) (ms : MergedSources) :
    StPres st (enhanceH st cq ms).1 := by
  unfold enhanceH
  cases cq.metadata with
  | some a =>
    exact StPres_trans (StPres_dictSetStore st a "source_pdfs" _ (by decide))
      (StPres_trans (StPres_dictSetStore _ a "years_found" _ (by decide))
        (StPres_trans (StPres_dictSetStore _ a "is_deduplicated" _ (by decide))
          (StPres_dictSetStore _ a "duplicate_count" _ (by decide))))
  | none =>
    exact StPres_trans (StPres_alloc st)
      (StPres_trans (StPres_dictSetStore _ st.length "source_pdfs" _ (by decide))
        (StPres_trans (StPres_dictSetStore _ st.length "years_found" _ (by decide))
          (StPres_trans
            (StPres_dictSetStore _ st.length "is_deduplicated" _ (by decide))
            (StPres_dictSetStore _ st.length "duplicate_count" _ (by decide)))))

theorem StPres_tagH (st : Store) (q : HRec) : StPres st (tagH st q).1 := by
  unfold tagH
  cases q.metadata with
  | some a => exact StPres_dictSetStore st a "is_deduplicated" _ (by decide)
  | none =>
    exact StPres_trans (StPres_alloc st)
      (StPres_dictSetStore _ st.length "is_deduplicated" _ (by decide))

theorem StPres_processGroupsH (qs : List HRec) :
    ∀ (gs : List (String × List Nat)) (st : Store)
      (r : Store × List HRec × List GroupAudit),
      processGroupsH qs st gs = Except.ok r → StPres st r.1 := by
  intro gs
  induction gs with
  | nil =>
    intro st r h
    cases h
    exact StPres_refl st
  | cons g gs ih =>
    intro st r h
    unfold processGroupsH at h
    cases hsel : select_canonical_version (metaTruthH st) qs g.2 with
    | error e => rw [hsel, error_bind] at h; cases h
    | ok c =>
      rw [hsel, ok_bind] at h
      cases hms : merge_sources qs g.2 with
      | error e => rw [hms, error_bind] at h; cases h
      | ok ms =>
        rw [hms, ok_bind] at h
        cases hrec : processGroupsH qs (enhanceH st c.2 ms).1 gs with
        | error e => rw [hrec, error_bind] at h; cases h
        | ok r2 =>
          rw [hrec, ok_bind] at h
          cases h
          exact StPres_trans (StPres_enhanceH st c.2 ms) (ih _ r2 hrec)

theorem StPres_tagPassH (removed canons : List Nat) :
    ∀ (l : List (Nat × HRec)) (st : Store),
      StPres st (tagPassH removed canons st l).1 := by
  intro l
  induction l with
  | nil => intro st; exact StPres_refl st
  | cons p ps ih =>
    intro st
    unfold tagPassH
    by_cases hc : p.1 ∈ removed ∨ p.1 ∈ canons
    · rw [if_pos hc]
      exact ih st
    · rw [if_neg hc]
      exact StPres_trans (StPres_tagH st p.2) (ih (tagH st p.2).1)

/-- C7 (amended): a run of the engine writes only the four engine keys into
metadata mappings — at every store address, lookups of every other
(caller-supplied) key are unchanged.  The input corpus is NOT fully
unmutated, however: output copies share their metadata mapping with the
corresponding input record (shallow `dict.copy()`), so the engine-key
writes are visible through the input records (see the counterexample). -/
theorem C7_no_caller_key_loss (st : Store) (qs : List HRec) (st2 : Store)
    (out : List HRec) (rpt : Report)
    (h : deduplicateH st qs = Except.ok (st2, out, rpt)) :
    ∀ a k, k ∉ EngineKeys →
      lookupMeta (st2.getD a []) k = lookupMeta (st.getD a []) k := by
  unfold deduplicateH at h
  cases hrec : processGroupsH qs st (find_duplicates qs) with
  | error e => rw [hrec, error_bind] at h; cases h
  | ok r =>
    rw [hrec, ok_bind] at h
    have h2 := Except.ok.inj h
    have hst2 : st2 = (tagPassH
        (r.2.2.flatMap (fun a =>
          a.duplicate_indices.filter (fun i => i ≠ a.canonical_index)))
        (r.2.2.map (fun a => a.canonical_index)) r.1 qs.enum).1 :=
      (congrArg Prod.fst h2).symm
    rw [hst2]
    exact StPres_trans (StPres_processGroupsH qs _ st r hrec)
      (StPres_tagPassH _ _ qs.enum r.1)

def dfltH : HRec := RecG.mk none none none none none none none []

def c7st : Store := [[("note", MVal.nat 7)]]

def c7qs : List HRec :=
  [RecG.mk (some "d") none none none none (some 0) none [],
   RecG.mk (some "d") none none none none none none []]

def c7st2 : Store :=
  match deduplicateH c7st c7qs with
  | Except.ok r => r.1
  | Except.error _ => []

def c7out : List HRec :=
  match deduplicateH c7st c7qs with
  | Except.ok r => r.2.1
  | Except.error _ => []

def c7rpt : Report :=
  match deduplicateH c7st c7qs with
  | Except.ok r => r.2.2
  | Except.error _ => Report.mk 0 0 0 [] 0 0

/-- Counterexample for C7: input record 0 carries a metadata mapping (at
store address 0).  After the run, that mapping — still referenced by the
untouched input record — has gained the engine keys: the input corpus's
metadata was mutated in place through the shallow copy of line 145. -/
theorem C7_counterexample :
    deduplicateH c7st c7qs = Except.ok (c7st2, c7out, c7rpt) ∧
    (c7qs.getD 0 dfltH).metadata = some 0 ∧
    lookupMeta (c7st.getD 0 []) "is_deduplicated" = none ∧
    lookupMeta (c7st2.getD 0 []) "is_deduplicated" =
      some (MVal.bool true) ∧
    c7st2.getD 0 [] ≠ c7st.getD 0 [] := by
  exact ⟨rfl, rfl, rfl, by decide, by decide⟩

/-- Witness for the amended C7: the caller key "note" of the mutated
mapping survives the run unchanged. -/
theorem C7_witness :
    deduplicateH c7st c7qs = Except.ok (c7st2, c7out, c7rpt) ∧
    "note" ∉ EngineKeys ∧
    lookupMeta (c7st2.getD 0 []) "note" =
      lookupMeta (c7st.getD 0 []) "note" :=
  ⟨rfl, by decide,
    C7_no_caller_key_loss c7st c7qs c7st2 c7out c7rpt rfl 0 "note" (by decide)⟩
